import Mathlib

/-!
Verification of the Sudoku core of `sudoku-gfx.py` (solver, generator,
rater).  The Python functions are embedded shallowly: boards are lists of
optional digits, in-place mutation becomes explicit state passing, the
process-wide random generator becomes an explicit tape of natural numbers
that each random draw consumes (universally quantifying over tapes covers
every sequence of random choices the original can make), and the solver's
`while` loops become fuel-indexed recursions returning `Option` (with
theorems showing the fuel bound is never reached).
-/

set_option maxRecDepth 10000

/-- A cell of the board: `none` is an empty cell, `some n` holds digit `n`
(the program uses internal digits 0..8 for printed digits 1..9). -/
abbrev Cell := Option Nat

/-- A board is the ordered sequence of 81 cells (list of length 81). -/
abbrev Board := List Cell

/-- The explicit random tape: each draw by the program consumes one entry.
Quantifying over all tapes models every possible sequence of random
choices of Python's global `random` generator. -/
abbrev Tape := List Nat

/-- One raw draw from the tape (defaults to 0 on an exhausted tape). -/
def rdraw (t : Tape) : Nat × Tape := (t.headD 0, t.tail)

/-- `random.randint(0, n)`: a value in `0..n`, driven by the tape. -/
def randint (n : Nat) (t : Tape) : Nat × Tape :=
  ((t.headD 0) % (n + 1), t.tail)

/-- `posfor(x, y, axis)` from the source: position of offset `y` on line
`x` of the given axis (0 = row, 1 = column, 2 = box), with the box case
using the two lookup tables of the source. -/
def posfor (x y : Nat) (axis : Nat) : Nat :=
  if axis = 0 then x * 9 + y
  else if axis = 1 then y * 9 + x
  else [0,3,6,27,30,33,54,57,60].getD x 0 + [0,1,2,9,10,11,18,19,20].getD y 0

/-- Python's `%` on rationals models `float.__mod__` for a positive
modulus: `a - b * floor(a / b)`. -/
def pymod (a b : ℚ) : ℚ := a - b * ⌊a / b⌋

/-- `axisfor(pos, axis)` from the source.  The script runs under
`python3`, where `/` is TRUE division, so the results are floats
(modelled exactly as rationals), not integers. -/
def axisfor (pos : Nat) (axis : Nat) : ℚ :=
  if axis = 0 then (pos : ℚ) / 9
  else if axis = 1 then ((pos % 9 : Nat) : ℚ)
  else ((pos : ℚ) / 27) * 3 + pymod ((pos : ℚ) / 3) 3

/-- The floor-division variant of `axisfor`.  Modelled from the spec:
the spec's design note says the axis arithmetic "must use floor integer
division throughout" and that any other interpretation is a defect; this
is that intended function (row `p/9`, column `p%9`,
box `(p/27)*3 + (p/3)%3` under floor division). -/
def axisforInt (pos : Nat) (axis : Nat) : Nat :=
  if axis = 0 then pos / 9
  else if axis = 1 then pos % 9
  else (pos / 27) * 3 + (pos / 3) % 3

/-- `axismissing(board, x, axis)`: 9-bit mask of the digits absent from
line `x` of the axis; the source ORs a bit per filled cell and XORs
with 511. -/
def axismissing (board : Board) (x : Nat) (axis : Nat) : Nat :=
  511 ^^^ ((List.range 9).foldl
    (fun bits y =>
      match board.getD (posfor x y axis) none with
      | some e => bits ||| (1 <<< e)
      | none => bits) 0)

/-- `listbits(bits)`: ascending list of the digit indices (0..8) set in a
mask. -/
def listbits (bits : Nat) : List Nat :=
  (List.range 9).filter (fun y => 0 ≠ bits &&& (1 <<< y))

/-- `allowed[pos] &= bits` — one in-place update of the allowed-mask
array. -/
def andAt (l : List Nat) (i : Nat) (m : Nat) : List Nat :=
  l.set i (l.getD i 0 &&& m)

/-- `figurebits(board)` from the source: the per-cell allowed masks
(511 for an empty cell intersected with the missing masks of its row,
column and box; 0 for a filled cell) and the per-line needed masks, in
the source's append order (`needed[axis*9 + x]`). -/
def figurebits (board : Board) : List Nat × List Nat :=
  (List.range 3).foldl
    (fun an axis =>
      (List.range 9).foldl
        (fun an x =>
          ((List.range 9).foldl
              (fun al y => andAt al (posfor x y axis) (axismissing board x axis)) an.1,
           an.2 ++ [axismissing board x axis]))
        an)
    (board.map (fun e => if e = none then 511 else 0), [])

-- ------------------------------------------------------------------
-- The board-text parser (`parseboard`).
-- ------------------------------------------------------------------

/-- The whitespace characters Python's `str.split()` splits on (ASCII). -/
def pyspace (c : Char) : Bool :=
  c = ' ' ∨ c = '\t' ∨ c = '\n' ∨ c = '\r' ∨ c = '\x0b' ∨ c = '\x0c'

/-- Worker for `str.split()`: accumulates the current word (reversed). -/
def pysplitGo : List Char → List Char → List (List Char)
  | [], acc => if acc = [] then [] else [acc.reverse]
  | c :: cs, acc =>
    if pyspace c then
      if acc = [] then pysplitGo cs [] else acc.reverse :: pysplitGo cs []
    else pysplitGo cs (c :: acc)

/-- Python `str.split()` (no argument): maximal runs of non-whitespace. -/
def pysplit (s : List Char) : List (List Char) := pysplitGo s []

/-- The character loop of `parseboard`: walks the significant characters
in order, skipping the separators, appending `some d` for a digit `1..9`
and `none` for any other character, returning as soon as 81 cells are
collected; falling off the end yields Python's implicit `None`. -/
def parsechars : List Char → Board → Option Board
  | [], _ => none
  | c :: cs, acc =>
    if c = '|' ∨ c = '-' ∨ c = '=' ∨ c = '+' then parsechars cs acc
    else
      let acc' := if '1' ≤ c ∧ c ≤ '9' then acc ++ [some (c.toNat - 49)]
                  else acc ++ [none]
      if acc'.length = 81 then some acc' else parsechars cs acc'

/-- `parseboard(str)` from the source: iterating the characters of the
words of `str.split()` is iterating the flattened word list. -/
def parseboard (s : List Char) : Option Board :=
  parsechars (pysplit s).flatten []

-- ------------------------------------------------------------------
-- Parser characterization.
-- ------------------------------------------------------------------

/-- The separator characters of the grammar. -/
def sepchar (c : Char) : Bool := c = '|' ∨ c = '-' ∨ c = '=' ∨ c = '+'

/-- The per-symbol cell mapping of the grammar: digits `1..9` become
internal values `0..8`, anything else an empty cell. -/
def charCell (c : Char) : Cell :=
  if '1' ≤ c ∧ c ≤ '9' then some (c.toNat - 49) else none

/-- The parse function exactly as the claim words it: every character
other than the four separators is a significant symbol (so whitespace
would denote an empty cell); fail when fewer than 81 remain. -/
def claimParse (s : List Char) : Option Board :=
  let sig := s.filter (fun c => !(sepchar c))
  if sig.length < 81 then none else some ((sig.take 81).map charCell)

/-- The amended parse specification: whitespace is ignored (not counted)
just like the separators, because the source iterates the words of
`str.split()`. -/
def specParse (s : List Char) : Option Board :=
  let sig := (s.filter (fun c => !(pyspace c))).filter (fun c => !(sepchar c))
  if sig.length < 81 then none else some ((sig.take 81).map charCell)

theorem pysplitGo_flatten (s : List Char) :
    ∀ acc, (pysplitGo s acc).flatten = acc.reverse ++ s.filter (fun c => !(pyspace c)) := by
  induction s with
  | nil =>
    intro acc
    by_cases h : acc = [] <;> simp [pysplitGo, h]
  | cons c cs ih =>
    intro acc
    by_cases hc : pyspace c
    · by_cases h : acc = [] <;>
        simp [pysplitGo, hc, h, ih]
    · simpa [pysplitGo, hc] using ih (c :: acc)


theorem parsechars_cons_sep (c : Char) (cs : List Char) (acc : Board)
    (hc : sepchar c = true) : parsechars (c :: cs) acc = parsechars cs acc := by
  have : c = '|' ∨ c = '-' ∨ c = '=' ∨ c = '+' := by simpa [sepchar] using hc
  simp [parsechars, this]

theorem parsechars_cons_sig (c : Char) (cs : List Char) (acc : Board)
    (hc : sepchar c = false) :
    parsechars (c :: cs) acc =
      (if (acc ++ [charCell c]).length = 81 then some (acc ++ [charCell c])
       else parsechars cs (acc ++ [charCell c])) := by
  have hns : ¬(c = '|' ∨ c = '-' ∨ c = '=' ∨ c = '+') := by
    simpa [sepchar] using hc
  have hcell : (if '1' ≤ c ∧ c ≤ '9' then acc ++ [some (c.toNat - 49)] else acc ++ [none])
      = acc ++ [charCell c] := by
    unfold charCell
    by_cases hd : '1' ≤ c ∧ c ≤ '9' <;> simp [hd]
  simp only [parsechars, hns, if_false, hcell, ite_false]

theorem parsechars_eq (l : List Char) :
    ∀ acc : Board, acc.length < 81 →
      parsechars l acc =
        (if (l.filter (fun c => !(sepchar c))).length < 81 - acc.length then none
         else some (acc ++ ((l.filter (fun c => !(sepchar c))).take (81 - acc.length)).map charCell)) := by
  induction l with
  | nil =>
    intro acc hacc
    simp only [parsechars, List.filter_nil, List.length_nil]
    rw [if_pos (by omega)]
  | cons c cs ih =>
    intro acc hacc
    by_cases hc : sepchar c = true
    · rw [parsechars_cons_sep c cs acc hc, ih acc hacc,
        List.filter_cons_of_neg (by simp [hc])]
    · have hc' : sepchar c = false := by simpa using hc
      rw [parsechars_cons_sig c cs acc hc',
        List.filter_cons_of_pos (by simp [hc'])]
      have hlen : (acc ++ [charCell c]).length = acc.length + 1 := by simp
      by_cases hfull : acc.length + 1 = 81
      · rw [if_pos (by simpa [hlen] using hfull)]
        rw [if_neg (by simp; omega)]
        have h81 : 81 - acc.length = 1 := by omega
        rw [h81, List.take_succ_cons, List.take_zero]
        simp
      · rw [if_neg (by simpa [hlen] using hfull)]
        rw [ih (acc ++ [charCell c]) (by omega)]
        have hsub : 81 - (acc ++ [charCell c]).length = (81 - acc.length) - 1 := by
          rw [hlen]; omega
        have hsub2 : 81 - acc.length = ((81 - acc.length) - 1) + 1 := by omega
        rw [hsub]
        by_cases hrest : (cs.filter (fun c => !(sepchar c))).length < (81 - acc.length) - 1
        · rw [if_pos hrest, if_pos (by simp only [List.length_cons]; omega)]
        · rw [if_neg hrest, if_neg (by simp only [List.length_cons]; omega)]
          rw [hsub2, List.take_succ_cons]
          simp

/-- Refinement bridge: the source parser equals the amended
specification parser on every input. -/
theorem parseboard_eq_specParse (s : List Char) : parseboard s = specParse s := by
  unfold parseboard specParse pysplit
  have hflat := pysplitGo_flatten s []
  simp only [List.reverse_nil, List.nil_append] at hflat
  rw [hflat, parsechars_eq _ [] (by simp)]
  simp

/-- C7 (counterexample): the claim counts every non-separator character as
a significant symbol mapped to a cell, so on a text of 81 spaces it
prescribes a successful parse into 81 empty cells; the source parser
iterates `str.split()` and therefore drops whitespace entirely, returning
no board on that very input. -/
theorem C7_whitespace_counterexample :
    claimParse (List.replicate 81 ' ') = some (List.replicate 81 (none : Cell)) ∧
    parseboard (List.replicate 81 ' ') = none := by
  constructor
  · decide
  · decide

/-- C7 (amended): the parse function reads significant symbols in order,
ignoring the separator characters `| - = +` AND all whitespace without
counting them, maps digit characters 1-9 to internal values 0-8, maps
every other significant character to an empty cell, stops after 81
significant symbols, and on any text with fewer than 81 significant
symbols fails (returns no board) rather than returning a truncated
board — all packaged as `parseboard = specParse`. -/
theorem C7_parse_spec : ∀ s : List Char, parseboard s = specParse s :=
  parseboard_eq_specParse

/-- C2 (code_bug evaluation): under Python 3 the source `axisfor` uses
true division, so at position `posfor(0,1,0) = 1` on axis 0 it yields the
non-integer `1/9` instead of the row index 0 demanded by the claim; the
floor-division variant `axisforInt` that the spec declares to be the
intent does satisfy the claimed round-trip on the whole domain. -/
theorem C2_axisfor_true_division_bug :
    posfor 0 1 0 = 1 ∧ axisfor 1 0 = 1 / 9 ∧ ((1 : ℚ) / 9 ≠ ((0 : Nat) : ℚ)) ∧
    (∀ axis : Fin 3, ∀ x y : Fin 9, axisforInt (posfor x.1 y.1 axis.1) axis.1 = x.1) := by
  refine ⟨rfl, ?_, by norm_num, by decide⟩
  norm_num [axisfor]

-- ------------------------------------------------------------------
-- Position arithmetic (all facts are finite checks).
-- ------------------------------------------------------------------

/-- The offset of position `j` inside its line on the given axis
(the inverse of `posfor` in its second argument). -/
def axoff (axis : Nat) (j : Nat) : Nat :=
  if axis = 0 then j % 9
  else if axis = 1 then j / 9
  else (j % 27) / 9 * 3 + j % 3

theorem posfor_lt : ∀ axis < 3, ∀ x < 9, ∀ y < 9, posfor x y axis < 81 := by decide

theorem posfor_roundtrip :
    ∀ axis < 3, ∀ x < 9, ∀ y < 9, axisforInt (posfor x y axis) axis = x := by decide

theorem posfor_surj :
    ∀ axis < 3, ∀ j < 81, axisforInt j axis < 9 ∧ axoff axis j < 9 ∧
      posfor (axisforInt j axis) (axoff axis j) axis = j := by decide

theorem posfor_inj_y :
    ∀ axis < 3, ∀ x < 9, ∀ y < 9, ∀ y' < 9,
      posfor x y axis = posfor x y' axis → y = y' := by decide

theorem posfor_hit :
    ∀ axis < 3, ∀ x < 9, ∀ j < 81,
      ((∃ y, y < 9 ∧ posfor x y axis = j) ↔ axisforInt j axis = x) := by decide

-- ------------------------------------------------------------------
-- `figurebits` characterization.
-- ------------------------------------------------------------------

theorem foldl_pair {α β γ : Type} (F : α → γ → α) (G : β → γ → β)
    (l : List γ) (p : α × β) :
    l.foldl (fun an c => (F an.1 c, G an.2 c)) p = (l.foldl F p.1, l.foldl G p.2) := by
  induction l generalizing p with
  | nil => rfl
  | cons c cs ih => simpa using ih (F p.1 c, G p.2 c)

theorem andAt_length (l : List Nat) (i m : Nat) : (andAt l i m).length = l.length := by
  simp [andAt]

theorem andAt_getD (l : List Nat) (i m j : Nat) :
    (andAt l i m).getD j 0 =
      if j = i ∧ i < l.length then l.getD j 0 &&& m else l.getD j 0 := by
  unfold andAt
  by_cases hj : j = i
  · subst hj
    by_cases hi : j < l.length
    · rw [List.getD_eq_getD_get?, List.get?_set_eq_of_lt _ hi, List.getD_eq_getD_get?]
      simp [hi, List.get?_eq_getElem?, List.getElem?_eq_getElem hi, List.getD_eq_getElem _ _ hi]
    · rw [if_neg (by tauto)]
      rw [List.getD_eq_default _ _ (by simpa using Nat.le_of_not_lt hi),
        List.getD_eq_default _ _ (Nat.le_of_not_lt hi)]
  · rw [if_neg (by tauto)]
    rw [List.getD_eq_getD_get?, List.get?_set_ne _ _ (fun h => hj h.symm),
      List.getD_eq_getD_get?]

theorem foldl_andAt_length (bits x axis : Nat) (ys : List Nat) (al : List Nat) :
    (ys.foldl (fun al y => andAt al (posfor x y axis) bits) al).length = al.length := by
  induction ys generalizing al with
  | nil => rfl
  | cons y0 ys ih => simpa [andAt_length] using ih (andAt al (posfor x y0 axis) bits)

theorem foldl_andAt_getD_miss (bits x axis : Nat) (ys : List Nat) (al : List Nat) (j : Nat)
    (h : ∀ y ∈ ys, posfor x y axis ≠ j) :
    (ys.foldl (fun al y => andAt al (posfor x y axis) bits) al).getD j 0 = al.getD j 0 := by
  induction ys generalizing al with
  | nil => rfl
  | cons y0 ys ih =>
    simp only [List.foldl_cons]
    rw [ih _ (fun y hy => h y (List.mem_cons_of_mem _ hy)), andAt_getD,
      if_neg (fun hc => h y0 (List.mem_cons_self y0 ys) hc.1.symm)]

theorem foldl_andAt_getD_hit (bits x axis : Nat) (ys : List Nat) (al : List Nat) (j : Nat)
    (hjl : j < al.length) (h : ∃ y ∈ ys, posfor x y axis = j) :
    (ys.foldl (fun al y => andAt al (posfor x y axis) bits) al).getD j 0 =
      al.getD j 0 &&& bits := by
  induction ys generalizing al with
  | nil => exact absurd h (by simp)
  | cons y0 ys ih =>
    simp only [List.foldl_cons]
    by_cases hp : posfor x y0 axis = j
    · have hset : (andAt al (posfor x y0 axis) bits).getD j 0 = al.getD j 0 &&& bits := by
        rw [andAt_getD, if_pos ⟨hp.symm, hp ▸ hjl⟩]
      by_cases hex : ∃ y ∈ ys, posfor x y axis = j
      · rw [ih _ (by rwa [andAt_length]) hex, hset, Nat.and_assoc, Nat.and_self]
      · rw [foldl_andAt_getD_miss bits x axis ys _ j
          (fun y hy hc => hex ⟨y, hy, hc⟩), hset]
    · have hex : ∃ y ∈ ys, posfor x y axis = j := by
        obtain ⟨y, hy, hpy⟩ := h
        rcases List.mem_cons.1 hy with h0 | h1
        · exact absurd (h0 ▸ hpy) hp
        · exact ⟨y, h1, hpy⟩
      rw [ih _ (by rwa [andAt_length]) hex, andAt_getD,
        if_neg (fun hc => hp hc.1.symm)]

theorem foldl_block_length (b : Board) (axis : Nat) (xs : List Nat) (al : List Nat) :
    (xs.foldl (fun al x =>
        (List.range 9).foldl
          (fun al y => andAt al (posfor x y axis) (axismissing b x axis)) al) al).length
      = al.length := by
  induction xs generalizing al with
  | nil => rfl
  | cons x0 xs ih =>
    simp only [List.foldl_cons]
    rw [ih, foldl_andAt_length]

theorem foldl_block_getD (b : Board) (axis : Nat) (haxis : axis < 3) (xs : List Nat)
    (hxs : ∀ x ∈ xs, x < 9) (al : List Nat) (hal : al.length = 81) (j : Nat) (hj : j < 81) :
    (xs.foldl (fun al x =>
        (List.range 9).foldl
          (fun al y => andAt al (posfor x y axis) (axismissing b x axis)) al) al).getD j 0 =
      if axisforInt j axis ∈ xs then al.getD j 0 &&& axismissing b (axisforInt j axis) axis
      else al.getD j 0 := by
  induction xs generalizing al with
  | nil => simp
  | cons x0 xs ih =>
    simp only [List.foldl_cons]
    have hx0 : x0 < 9 := hxs x0 (List.mem_cons_self x0 xs)
    have hxs' : ∀ x ∈ xs, x < 9 := fun x hx => hxs x (List.mem_cons_of_mem _ hx)
    have hinlen : ((List.range 9).foldl
        (fun al y => andAt al (posfor x0 y axis) (axismissing b x0 axis)) al).length = 81 := by
      rw [foldl_andAt_length, hal]
    by_cases hline : axisforInt j axis = x0
    · have hhit : ∃ y ∈ List.range 9, posfor x0 y axis = j := by
        obtain ⟨y, hy, hpy⟩ := ((posfor_hit axis haxis x0 hx0 j hj).2 hline)
        exact ⟨y, List.mem_range.2 hy, hpy⟩
      have hinner := foldl_andAt_getD_hit (axismissing b x0 axis) x0 axis
        (List.range 9) al j (by omega) hhit
      by_cases hmem : axisforInt j axis ∈ xs
      · rw [ih hxs' _ hinlen, if_pos hmem, hinner, hline,
          if_pos (List.mem_cons_self x0 xs), Nat.and_assoc, Nat.and_self]
      · rw [ih hxs' _ hinlen, if_neg hmem, hinner, hline,
          if_pos (List.mem_cons_self x0 xs)]
    · have hmiss : ∀ y ∈ List.range 9, posfor x0 y axis ≠ j := by
        intro y hy hpy
        exact hline (hpy ▸ posfor_roundtrip axis haxis x0 hx0 y (List.mem_range.1 hy))
      have hinner := foldl_andAt_getD_miss (axismissing b x0 axis) x0 axis
        (List.range 9) al j hmiss
      by_cases hmem : axisforInt j axis ∈ xs
      · rw [ih hxs' _ hinlen, if_pos hmem, hinner,
          if_pos (List.mem_cons_of_mem _ hmem)]
      · rw [ih hxs' _ hinlen, if_neg hmem, hinner,
          if_neg (by
            intro hc
            rcases List.mem_cons.1 hc with h0 | h1
            · exact hline h0
            · exact hmem h1)]

/-- The allowed-mask component of `figurebits`, pair-split off. -/
def FBallowed (b : Board) : List Nat :=
  (List.range 3).foldl (fun al axis =>
    (List.range 9).foldl (fun al x =>
      (List.range 9).foldl
        (fun al y => andAt al (posfor x y axis) (axismissing b x axis)) al) al)
    (b.map (fun e => if e = none then 511 else 0))

/-- The needed-mask component of `figurebits`, pair-split off. -/
def FBneeded (b : Board) : List Nat :=
  (List.range 3).foldl (fun nd axis =>
    (List.range 9).foldl (fun nd x => nd ++ [axismissing b x axis]) nd) []

theorem figurebits_inner_split (b : Board) (axis : Nat) (xs : List Nat)
    (a1 a2 : List Nat) :
    xs.foldl (fun an x =>
      ((List.range 9).foldl
          (fun al y => andAt al (posfor x y axis) (axismissing b x axis)) an.1,
       an.2 ++ [axismissing b x axis])) (a1, a2)
    = (xs.foldl (fun al x =>
        (List.range 9).foldl
          (fun al y => andAt al (posfor x y axis) (axismissing b x axis)) al) a1,
       xs.foldl (fun nd x => nd ++ [axismissing b x axis]) a2) := by
  induction xs generalizing a1 a2 with
  | nil => rfl
  | cons x0 xs ih =>
    simp only [List.foldl_cons]
    exact ih _ _

theorem figurebits_outer_split (b : Board) (axes : List Nat) (a1 a2 : List Nat) :
    axes.foldl (fun an axis =>
      (List.range 9).foldl (fun an x =>
        ((List.range 9).foldl
            (fun al y => andAt al (posfor x y axis) (axismissing b x axis)) an.1,
         an.2 ++ [axismissing b x axis])) an) (a1, a2)
    = (axes.foldl (fun al axis =>
        (List.range 9).foldl (fun al x =>
          (List.range 9).foldl
            (fun al y => andAt al (posfor x y axis) (axismissing b x axis)) al) al) a1,
       axes.foldl (fun nd axis =>
        (List.range 9).foldl (fun nd x => nd ++ [axismissing b x axis]) nd) a2) := by
  induction axes generalizing a1 a2 with
  | nil => rfl
  | cons a0 axes ih =>
    simp only [List.foldl_cons]
    rw [figurebits_inner_split]
    exact ih _ _

theorem figurebits_split (b : Board) : figurebits b = (FBallowed b, FBneeded b) := by
  unfold figurebits FBallowed FBneeded
  exact figurebits_outer_split b (List.range 3) _ _

/-- The closed form of the allowed mask the `figurebits` fold computes for
position `j`. -/
def allowedAt (b : Board) (j : Nat) : Nat :=
  (if b.getD j none = none then 511 else 0) &&&
    axismissing b (axisforInt j 0) 0 &&&
    axismissing b (axisforInt j 1) 1 &&&
    axismissing b (axisforInt j 2) 2

theorem FBallowed_length (b : Board) : (FBallowed b).length = b.length := by
  unfold FBallowed
  rw [show List.range 3 = [0, 1, 2] from rfl]
  simp only [List.foldl_cons, List.foldl_nil]
  rw [foldl_block_length, foldl_block_length, foldl_block_length, List.length_map]

theorem FBallowed_getD (b : Board) (hb : b.length = 81) (j : Nat) (hj : j < 81) :
    (FBallowed b).getD j 0 = allowedAt b j := by
  have hin : (b.map (fun e => if e = none then 511 else 0)).length = 81 := by
    rw [List.length_map, hb]
  unfold FBallowed
  rw [show List.range 3 = [0, 1, 2] from rfl]
  simp only [List.foldl_cons, List.foldl_nil]
  rw [foldl_block_getD b 2 (by omega) _ (fun x hx => List.mem_range.1 hx) _
      (by rw [foldl_block_length, foldl_block_length, hin]) j hj,
    if_pos (List.mem_range.2 (posfor_surj 2 (by omega) j hj).1),
    foldl_block_getD b 1 (by omega) _ (fun x hx => List.mem_range.1 hx) _
      (by rw [foldl_block_length, hin]) j hj,
    if_pos (List.mem_range.2 (posfor_surj 1 (by omega) j hj).1),
    foldl_block_getD b 0 (by omega) _ (fun x hx => List.mem_range.1 hx) _ hin j hj,
    if_pos (List.mem_range.2 (posfor_surj 0 (by omega) j hj).1)]
  have hinit : (b.map (fun e => if e = none then 511 else 0)).getD j 0
      = (if b.getD j none = none then 511 else 0) := by
    rw [List.getD_eq_getElem _ _ (by omega : j < (b.map _).length), List.getElem_map,
      List.getD_eq_getElem _ _ (by omega : j < b.length)]
  rw [hinit]
  rfl

theorem FBneeded_eq (b : Board) : FBneeded b =
    [axismissing b 0 0, axismissing b 1 0, axismissing b 2 0, axismissing b 3 0,
     axismissing b 4 0, axismissing b 5 0, axismissing b 6 0, axismissing b 7 0,
     axismissing b 8 0,
     axismissing b 0 1, axismissing b 1 1, axismissing b 2 1, axismissing b 3 1,
     axismissing b 4 1, axismissing b 5 1, axismissing b 6 1, axismissing b 7 1,
     axismissing b 8 1,
     axismissing b 0 2, axismissing b 1 2, axismissing b 2 2, axismissing b 3 2,
     axismissing b 4 2, axismissing b 5 2, axismissing b 6 2, axismissing b 7 2,
     axismissing b 8 2] := by
  unfold FBneeded
  rw [show List.range 3 = [0,1,2] from rfl,
    show List.range 9 = [0,1,2,3,4,5,6,7,8] from rfl]
  simp only [List.foldl_cons, List.foldl_nil, List.nil_append, List.cons_append]

theorem FBneeded_length (b : Board) : (FBneeded b).length = 27 := by
  rw [FBneeded_eq]; rfl

theorem FBneeded_getD (b : Board) :
    ∀ axis < 3, ∀ x < 9, (FBneeded b).getD (axis * 9 + x) 0 = axismissing b x axis := by
  intro axis haxis x hx
  rw [FBneeded_eq]
  interval_cases axis <;> interval_cases x <;> rfl

-- ------------------------------------------------------------------
-- Bit semantics of the masks.
-- ------------------------------------------------------------------

theorem and_shift_ne (bits n : Nat) :
    (bits &&& (1 <<< n) ≠ 0) ↔ bits.testBit n = true := by
  rw [Nat.one_shiftLeft, Nat.and_two_pow]
  cases h : bits.testBit n <;> simp [(Nat.two_pow_pos n).ne']

theorem mem_listbits (bits n : Nat) :
    n ∈ listbits bits ↔ n < 9 ∧ bits.testBit n = true := by
  unfold listbits
  rw [List.mem_filter, List.mem_range, and_comm]
  constructor
  · rintro ⟨hp, hn⟩
    exact ⟨hn, (and_shift_ne bits n).1 (fun h => by simp [h] at hp)⟩
  · rintro ⟨hn, hb⟩
    refine ⟨by simpa using fun h => (and_shift_ne bits n).2 hb h.symm, hn⟩

theorem orfold_testBit (b : Board) (x axis n : Nat) (ys : List Nat) (acc : Nat) :
    ((ys.foldl (fun bits y =>
      match b.getD (posfor x y axis) none with
      | some e => bits ||| (1 <<< e)
      | none => bits) acc).testBit n = true) ↔
      (acc.testBit n = true ∨ ∃ y ∈ ys, b.getD (posfor x y axis) none = some n) := by
  induction ys generalizing acc with
  | nil => simp
  | cons y0 ys ih =>
    simp only [List.foldl_cons]
    cases hcell : b.getD (posfor x y0 axis) none with
    | none =>
      show ((ys.foldl _ acc).testBit n = true) ↔ _
      rw [ih]
      constructor
      · rintro (h | ⟨y, hy, hv⟩)
        · exact Or.inl h
        · exact Or.inr ⟨y, List.mem_cons_of_mem _ hy, hv⟩
      · rintro (h | ⟨y, hy, hv⟩)
        · exact Or.inl h
        · rcases List.mem_cons.1 hy with h0 | h1
          · subst h0
            rw [hcell] at hv
            exact absurd hv (by simp)
          · exact Or.inr ⟨y, h1, hv⟩
    | some e =>
      show ((ys.foldl _ (acc ||| (1 <<< e))).testBit n = true) ↔ _
      rw [ih]
      simp only [Nat.testBit_or, Nat.one_shiftLeft, Nat.testBit_two_pow,
        Bool.or_eq_true, decide_eq_true_eq]
      constructor
      · rintro (⟨h | h⟩ | h)
        · exact Or.inl h
        · exact Or.inr ⟨y0, List.mem_cons_self y0 ys, by rw [hcell, h]⟩
        · obtain ⟨y, hy, hv⟩ := h
          exact Or.inr ⟨y, List.mem_cons_of_mem _ hy, hv⟩
      · rintro (h | ⟨y, hy, hv⟩)
        · exact Or.inl (Or.inl h)
        · rcases List.mem_cons.1 hy with h0 | h1
          · subst h0
            rw [hcell] at hv
            exact Or.inl (Or.inr (Option.some_inj.1 hv))
          · exact Or.inr ⟨y, h1, hv⟩

theorem axismissing_testBit (b : Board) (x axis n : Nat) (hn : n < 9) :
    ((axismissing b x axis).testBit n = true) ↔
      ∀ y < 9, b.getD (posfor x y axis) none ≠ some n := by
  unfold axismissing
  rw [Nat.testBit_xor]
  have h511 : (511 : Nat).testBit n = true := by
    rw [show (511 : Nat) = 2 ^ 9 - 1 by norm_num, Nat.testBit_two_pow_sub_one,
      decide_eq_true_eq]
    exact hn
  rw [h511]
  have hb : ∀ z : Bool, ((true != z) = true ↔ ¬(z = true)) := by decide
  rw [hb, orfold_testBit]
  simp only [Nat.zero_testBit, Bool.false_eq_true, false_or, not_exists, not_and,
    List.mem_range]

-- ------------------------------------------------------------------
-- The solver (`pickbetter`, `deduce`, `solveboard`, `solvenext`).
-- ------------------------------------------------------------------

/-- A guess list: the `(position, digit)` options of a branch set. -/
abbrev Opts := List (Nat × Nat)

/-- `pickbetter(b, c, t)` from the source: reservoir-style selection of a
smallest candidate list, keeping a count of ties and replacing the held
list with probability `1/count` (here: when the tape draw is 0). -/
def pickbetter (b : Option Opts) (c : Nat) (t : Opts) (tape : Tape) :
    (Opts × Nat) × Tape :=
  match b with
  | none => ((t, 1), tape)
  | some bl =>
    if t.length < bl.length then ((t, 1), tape)
    else if t.length > bl.length then ((bl, c), tape)
    else
      let rt := randint c tape
      if rt.1 = 0 then ((t, c + 1), rt.2) else ((bl, c + 1), rt.2)

/-- Swap two positions of a list (identity when an index is out of
range; all uses are in range). -/
def lswap (l : List α) (i j : Nat) : List α :=
  match l.get? i, l.get? j with
  | some a, some b => (l.set i b).set j a
  | _, _ => l

/-- The Fisher-Yates loop of `random.shuffle`, with the draw at step `i`
taken from the tape (`j = draw mod (i+1)` covers exactly the values
`0..i` the original draws). -/
def pyshuffleGo : List α → Tape → Nat → List α × Tape
  | l, t, 0 => (l, t)
  | l, t, i + 1 =>
    let jt := randint (i + 1) t
    pyshuffleGo (lswap l (i + 1) jt.1) jt.2 i

/-- `random.shuffle(x)`: swaps down from index `len-1` to 1. -/
def pyshuffle (l : List α) (t : Tape) : List α × Tape :=
  pyshuffleGo l t (l.length - 1)

/-- The mutable state threaded through one `deduce` iteration:
the board, the `stuck` flag, the current best guess list with its
reservoir count, and the random tape. -/
structure DSt where
  board : Board
  stuck : Bool
  guess : Option Opts
  count : Nat
  tape : Tape

/-- The body of the first `deduce` loop (naked singles) at one position:
empty candidate mask returns the contradiction (`return []`), a single
candidate is assigned, several candidates feed `pickbetter` while still
stuck. -/
def pass1step (allowed : List Nat) (s : DSt) (pos : Nat) : Except (Board × Tape) DSt :=
  if s.board.getD pos none = none then
    let numbers := listbits (allowed.getD pos 0)
    if numbers.length = 0 then Except.error (s.board, s.tape)
    else if numbers.length = 1 then
      Except.ok { s with board := s.board.set pos (some (numbers.headD 0)), stuck := false }
    else if s.stuck then
      let gct := pickbetter s.guess s.count (numbers.map (fun n => (pos, n))) s.tape
      Except.ok { s with guess := some gct.1.1, count := gct.1.2, tape := gct.2 }
    else Except.ok s
  else Except.ok s

/-- `for pos in range(81)` of the first `deduce` loop. -/
def pass1 (allowed : List Nat) (s : DSt) : Except (Board × Tape) DSt :=
  (List.range 81).foldlM (fun s pos => pass1step allowed s pos) s

/-- The body of the second `deduce` loop (hidden singles) for one digit
`n` still needed on line `x` of `axis`: `spots` collects the positions of
the line whose allowed mask admits `n`. -/
def pass2n (allowed : List Nat) (x axis : Nat) (s : DSt) (n : Nat) :
    Except (Board × Tape) DSt :=
  let spots := ((List.range 9).map (fun y => posfor x y axis)).filter
    (fun pos => allowed.getD pos 0 &&& (1 <<< n) ≠ 0)
  if spots.length = 0 then Except.error (s.board, s.tape)
  else if spots.length = 1 then
    Except.ok { s with board := s.board.set (spots.headD 0) (some n), stuck := false }
  else if s.stuck then
    let gct := pickbetter s.guess s.count (spots.map (fun pos => (pos, n))) s.tape
    Except.ok { s with guess := some gct.1.1, count := gct.1.2, tape := gct.2 }
  else Except.ok s

/-- One `(axis, x)` block of the second loop: iterate the digits of the
line's needed mask. -/
def pass2x (allowed needed : List Nat) (axis x : Nat) (s : DSt) :
    Except (Board × Tape) DSt :=
  (listbits (needed.getD (axis * 9 + x) 0)).foldlM (fun s n => pass2n allowed x axis s n) s

/-- The full second `deduce` loop over the three axes and nine lines. -/
def pass2 (allowed needed : List Nat) (s : DSt) : Except (Board × Tape) DSt :=
  (List.range 3).foldlM (fun s axis =>
    (List.range 9).foldlM (fun s x => pass2x allowed needed axis x s) s) s

/-- The `while True` loop of `deduce`, fuel-indexed (`none` = fuel ran
out; the sufficiency theorem shows 82 never does).  Returns the final
board (the in-place mutation), the result value (`none` = Python `None`
= solved, `some []` = the contradiction `[]`, `some g` with `g ≠ []` =
the shuffled branch set), and the remaining tape. -/
def deduceLoop : Nat → Board → Tape → Option (Board × Option Opts × Tape)
  | 0, _, _ => none
  | fuel + 1, b, t =>
    let an := figurebits b
    match pass1 an.1 { board := b, stuck := true, guess := none, count := 0, tape := t } with
    | Except.error bt => some (bt.1, some [], bt.2)
    | Except.ok s1 =>
      let an2 := if s1.stuck then an else figurebits s1.board
      match pass2 an2.1 an2.2 s1 with
      | Except.error bt => some (bt.1, some [], bt.2)
      | Except.ok s2 =>
        if s2.stuck then
          match s2.guess with
          | none => some (s2.board, none, s2.tape)
          | some g =>
            let gt := pyshuffle g s2.tape
            some (s2.board, some gt.1, gt.2)
        else deduceLoop fuel s2.board s2.tape

/-- `deduce(board)`: 82 units of fuel always suffice (each continuing
iteration fills at least one of the 81 cells). -/
def deduce (b : Board) (t : Tape) : Board × Option Opts × Tape :=
  (deduceLoop 82 b t).getD (b, some [], t)

/-- A search frame `(guesses, c, board)` and the stack (head = top). -/
abbrev Frame := Opts × Nat × Board
abbrev Stack := List Frame

/-- The number of empty cells of a board (among the 81 positions). -/
def emptyCount (b : Board) : Nat :=
  ((Finset.range 81).filter (fun j => b.getD j none = none)).card

/-- The termination measure of the `solvenext` loop: each iteration
strictly decreases it (frames pushed for a child board have strictly
fewer empty cells). -/
def stackMeasure (s : Stack) : Nat :=
  s.length + (s.map (fun f => (f.1.length - f.2.1) * 10 ^ emptyCount f.2.2)).sum

/-- The `while len(remembered) > 0` loop of `solvenext`, fuel-indexed.
Popping an exhausted frame is the backtrack step; otherwise the frame is
pushed back with its cursor advanced, the chosen option is applied to a
copy of its board, and `deduce` classifies the copy. -/
def solvenextLoop : Nat → Stack → Tape → Option (Stack × Option Board × Tape)
  | 0, _, _ => none
  | fuel + 1, stack, t =>
    match stack with
    | [] => some ([], none, t)
    | (guesses, c, board) :: rest =>
      if c ≥ guesses.length then solvenextLoop fuel rest t
      else
        let stack1 : Stack := (guesses, c + 1, board) :: rest
        let pn := guesses.getD c (0, 0)
        let workspace := board.set pn.1 (some pn.2)
        let dres := deduce workspace t
        match dres.2.1 with
        | none => some (stack1, some dres.1, dres.2.2)
        | some g2 => solvenextLoop fuel ((g2, 0, dres.1) :: stack1) dres.2.2

/-- `solvenext(remembered)`: the fuel `stackMeasure + 1` is proved
sufficient for every stack whose frames' options target empty cells. -/
def solvenext (s : Stack) (t : Tape) : Stack × Option Board × Tape :=
  (solvenextLoop (stackMeasure s + 1) s t).getD ([], none, t)

/-- `solveboard(original)`: copies the input (`list(original)` — a value
copy here), runs `deduce` once and enters the search loop. -/
def solveboard (original : Board) (t : Tape) : Stack × Option Board × Tape :=
  let dres := deduce original t
  match dres.2.1 with
  | none => ([], some dres.1, dres.2.2)
  | some g => solvenext [(g, 0, dres.1)] dres.2.2

/-- `solution(board)` from the source. -/
def solution (board : Board) (t : Tape) : Option Board := (solveboard board t).2.1

/-- `boardmatches(b1, b2)` from the source. -/
def boardmatches (b1 b2 : Board) : Bool :=
  (List.range 81).all (fun i => b1.getD i none == b2.getD i none)

/-- `checkpuzzle(puzzle, board)` from the source, returning the value and
the remaining tape. -/
def checkpuzzle (puzzle : Board) (board : Option Board) (t : Tape) : Int × Tape :=
  let r1 := solveboard puzzle t
  match r1.2.1 with
  | none => (-1, r1.2.2)
  | some answer =>
    if board.elim false (fun bd => !(boardmatches bd answer)) then (-1, r1.2.2)
    else
      let difficulty : Int := (r1.1.length : Int)
      let r2 := solvenext r1.1 r1.2.2
      match r2.2.1 with
      | some _ => (-1, r2.2.2)
      | none => (difficulty, r2.2.2)

/-- The sampling loop of `ratepuzzle` (`none` = the early `return -1`). -/
def ratepuzzleGo : Nat → Board → Tape → Nat → Option Nat × Tape
  | 0, _, t, total => (some total, t)
  | k + 1, puzzle, t, total =>
    let r := solveboard puzzle t
    match r.2.1 with
    | none => (none, r.2.2)
    | some _ => ratepuzzleGo k puzzle r.2.2 (total + r.1.length)

/-- `ratepuzzle(puzzle, samples)` from the source (the float mean is the
exact rational here). -/
def ratepuzzle (puzzle : Board) (samples : Nat) (t : Tape) : ℚ × Tape :=
  let r := ratepuzzleGo samples puzzle t 0
  match r.1 with
  | none => (-1, r.2)
  | some total => ((total : ℚ) / samples, r.2)

/-- `entriesforboard(board)` from the source (entries keep the stored
cell value). -/
def entriesforboard (board : Board) : List (Nat × Cell) :=
  ((List.range 81).filter (fun pos => board.getD pos none ≠ none)).map
    (fun pos => (pos, board.getD pos none))

/-- `boardforentries(entries)` from the source. -/
def boardforentries (entries : List (Nat × Cell)) : Board :=
  entries.foldl (fun bd pn => bd.set pn.1 pn.2) (List.replicate 81 none)

/-- The selection loop of `random.sample(range(81), 81)`: repeatedly pick
a remaining element at a tape-chosen index. -/
def pysampleGo : Nat → List Nat → Tape → List Nat × Tape
  | 0, _, t => ([], t)
  | k + 1, pool, t =>
    match pool with
    | [] => ([], t)
    | _ :: _ =>
      let rt := rdraw t
      let i := rt.1 % pool.length
      let x := pool.getD i 0
      let res := pysampleGo k (pool.eraseIdx i) rt.2
      (x :: res.1, res.2)

/-- `random.sample(range(81), 81)`: a tape-chosen permutation of the 81
positions. -/
def pysample81 (t : Tape) : List Nat × Tape := pysampleGo 81 (List.range 81) t

/-- The clue-collection loop of `makepuzzle`: walk the random order, add
a clue for every position not already deduced, and propagate. -/
def makepuzzleAdd (board : Board) (order : List Nat) (t : Tape) :
    List (Nat × Cell) × Board × Tape :=
  order.foldl (fun acc pos =>
    if acc.2.1.getD pos none = none then
      let puzzle' := acc.1 ++ [(pos, board.getD pos none)]
      let deduced' := acc.2.1.set pos (board.getD pos none)
      let dr := deduce deduced' acc.2.2
      (puzzle', dr.1, dr.2.2)
    else acc) ([], List.replicate 81 none, t)

/-- The minimization loop of `makepuzzle`: walk the shuffled clue list
from the last index down, drop the clue, and restore it (append at the
end, never revisited) iff `checkpuzzle` rejects the reduced board. -/
def makepuzzleMin : Nat → List (Nat × Cell) → Board → Tape → List (Nat × Cell) × Tape
  | 0, puzzle, _, t => (puzzle, t)
  | i + 1, puzzle, board, t =>
    let e := puzzle.getD i (0, none)
    let puzzle' := puzzle.eraseIdx i
    let r := checkpuzzle (boardforentries puzzle') (some board) t
    makepuzzleMin i (if r.1 = -1 then puzzle' ++ [e] else puzzle') board r.2

/-- `makepuzzle(board)` from the source. -/
def makepuzzle (board : Board) (t : Tape) : Board × Tape :=
  let ot := pysample81 t
  let ad := makepuzzleAdd board ot.1 ot.2
  let sh := pyshuffle ad.1 ad.2.2
  let mn := makepuzzleMin sh.1.length sh.1 board sh.2
  (boardforentries mn.1, mn.2)

-- ------------------------------------------------------------------
-- Semantic predicates and basic infrastructure.
-- ------------------------------------------------------------------

/-- `b'` extends `b`: same length, and every filled cell of `b` is
unchanged in `b'`. -/
def BExt (b b' : Board) : Prop :=
  b'.length = b.length ∧ ∀ j, b.getD j none ≠ none → b'.getD j none = b.getD j none

theorem BExt_refl (b : Board) : BExt b b := ⟨rfl, fun _ _ => rfl⟩

theorem BExt_trans {a b c : Board} (h1 : BExt a b) (h2 : BExt b c) : BExt a c := by
  refine ⟨h2.1.trans h1.1, fun j hj => ?_⟩
  rw [h2.2 j (by rw [h1.2 j hj]; exact hj), h1.2 j hj]

theorem getD_set_self (b : Board) (j : Nat) (v : Cell) (hj : j < b.length) :
    (b.set j v).getD j none = v := by
  rw [List.getD_eq_getD_get?, List.get?_set_eq_of_lt _ hj]
  rfl

theorem getD_set_ne (b : Board) (i j : Nat) (v : Cell) (hij : i ≠ j) :
    (b.set i v).getD j none = b.getD j none := by
  rw [List.getD_eq_getD_get?, List.get?_set_ne _ _ hij, List.getD_eq_getD_get?]

theorem BExt_set {b b' : Board} (h : BExt b b') (pos : Nat) (v : Nat)
    (hpos : b.getD pos none = none) : BExt b (b'.set pos (some v)) := by
  refine ⟨by rw [List.length_set, h.1], fun j hj => ?_⟩
  rw [getD_set_ne b' pos j (some v) (fun he => hj (by rw [← he]; exact hpos)), h.2 j hj]

theorem emptyCount_le_81 (b : Board) : emptyCount b ≤ 81 := by
  unfold emptyCount
  calc ((Finset.range 81).filter _).card ≤ (Finset.range 81).card :=
        Finset.card_le_card (Finset.filter_subset _ _)
    _ = 81 := Finset.card_range 81

theorem emptyCount_mono {b b' : Board} (h : BExt b b') : emptyCount b' ≤ emptyCount b := by
  unfold emptyCount
  refine Finset.card_le_card (fun j hj => ?_)
  rw [Finset.mem_filter] at hj ⊢
  refine ⟨hj.1, ?_⟩
  by_contra hb
  have := h.2 j hb
  rw [hj.2] at this
  exact hb this.symm

theorem emptyCount_set_le (b : Board) (i : Nat) (v : Nat) :
    emptyCount (b.set i (some v)) ≤ emptyCount b := by
  by_cases hib : i < b.length
  · by_cases hempty : b.getD i none = none
    · refine emptyCount_mono ⟨by rw [List.length_set], fun j hj => ?_⟩
      exact getD_set_ne b i j _ (fun he => hj (by rw [← he]; exact hempty))
    · unfold emptyCount
      refine Finset.card_le_card (fun j hj => ?_)
      rw [Finset.mem_filter] at hj ⊢
      refine ⟨hj.1, ?_⟩
      rcases eq_or_ne i j with rfl | hne
      · rw [getD_set_self b i _ hib] at hj
        exact absurd hj.2 (by simp)
      · rw [getD_set_ne b i j _ hne] at hj
        exact hj.2
  · rw [List.set_eq_of_length_le (Nat.le_of_not_lt hib)]

theorem emptyCount_set_lt (b : Board) (i : Nat) (v : Nat) (hi : i < 81)
    (hib : i < b.length) (hempty : b.getD i none = none) :
    emptyCount (b.set i (some v)) < emptyCount b := by
  unfold emptyCount
  have hsub : (Finset.range 81).filter (fun j => (b.set i (some v)).getD j none = none)
      ⊆ ((Finset.range 81).filter (fun j => b.getD j none = none)).erase i := by
    intro j hj
    rw [Finset.mem_filter] at hj
    rw [Finset.mem_erase, Finset.mem_filter]
    rcases eq_or_ne j i with rfl | hne
    · rw [getD_set_self b j _ hib] at hj
      exact absurd hj.2 (by simp)
    · rw [getD_set_ne b i j _ (Ne.symm hne)] at hj
      exact ⟨hne, hj.1, hj.2⟩
  calc ((Finset.range 81).filter _).card
      ≤ (((Finset.range 81).filter (fun j => b.getD j none = none)).erase i).card :=
        Finset.card_le_card hsub
    _ < ((Finset.range 81).filter (fun j => b.getD j none = none)).card := by
        refine Finset.card_erase_lt_of_mem ?_
        rw [Finset.mem_filter]
        exact ⟨Finset.mem_range.2 hi, hempty⟩

/-- Generic invariant preservation for `foldlM` over `Except`. -/
theorem foldlM_except_inv {σ α ε : Type} (f : σ → α → Except ε σ) (P : σ → Prop)
    (l : List α) :
    ∀ s : σ, P s →
      (∀ s a, a ∈ l → P s → ∀ s', f s a = Except.ok s' → P s') →
      ∀ s', l.foldlM f s = Except.ok s' → P s' := by
  induction l with
  | nil =>
    intro s hs _ s' hf
    simp only [List.foldlM_nil] at hf
    cases hf
    exact hs
  | cons a l ih =>
    intro s hs hstep s' hf
    simp only [List.foldlM_cons] at hf
    cases hfa : f s a with
    | error e => rw [hfa] at hf; exact absurd hf (by simp [Bind.bind, Except.bind])
    | ok s1 =>
      rw [hfa] at hf
      have h1 : P s1 := hstep s a (List.mem_cons_self a l) hs s1 hfa
      exact ih s1 h1 (fun s b hb hP s' hfb =>
        hstep s b (List.mem_cons_of_mem _ hb) hP s' hfb) s' (by simpa [Bind.bind, Except.bind] using hf)

/-- Generic error tracking for `foldlM` over `Except`: an error is raised
by some step from a state satisfying the invariant. -/
theorem foldlM_except_err {σ α ε : Type} (f : σ → α → Except ε σ) (P : σ → Prop)
    (Q : ε → Prop) (l : List α) :
    ∀ s : σ, P s →
      (∀ s a, a ∈ l → P s → ∀ s', f s a = Except.ok s' → P s') →
      (∀ s a, a ∈ l → P s → ∀ e, f s a = Except.error e → Q e) →
      ∀ e, l.foldlM f s = Except.error e → Q e := by
  induction l with
  | nil =>
    intro s _ _ _ e hf
    simp only [List.foldlM_nil] at hf
    cases hf
  | cons a l ih =>
    intro s hs hstep herr e hf
    simp only [List.foldlM_cons] at hf
    cases hfa : f s a with
    | error e0 =>
      rw [hfa] at hf
      have : e0 = e := by simpa [Bind.bind, Except.bind] using hf
      exact this ▸ herr s a (List.mem_cons_self a l) hs e0 hfa
    | ok s1 =>
      rw [hfa] at hf
      exact ih s1 (hstep s a (List.mem_cons_self a l) hs s1 hfa)
        (fun s b hb hP s' hfb => hstep s b (List.mem_cons_of_mem _ hb) hP s' hfb)
        (fun s b hb hP e' hfb => herr s b (List.mem_cons_of_mem _ hb) hP e' hfb)
        e (by simpa [Bind.bind, Except.bind] using hf)

/-- Well-formed branch set relative to board `b`: non-empty, at most nine
options, every option at an in-range empty cell with a digit 0..8. -/
def OptsOK (b : Board) (gl : Opts) : Prop :=
  gl ≠ [] ∧ gl.length ≤ 9 ∧
    ∀ pn ∈ gl, pn.1 < 81 ∧ pn.2 < 9 ∧ b.getD pn.1 none = none

theorem listbits_length_le (bits : Nat) : (listbits bits).length ≤ 9 := by
  calc (listbits bits).length ≤ (List.range 9).length := List.length_filter_le _ _
    _ = 9 := List.length_range 9

theorem listbits_mem_lt {bits n : Nat} (h : n ∈ listbits bits) : n < 9 :=
  ((mem_listbits bits n).1 h).1

theorem pickbetter_ok (b : Board) (g : Option Opts) (c : Nat) (t : Opts) (tape : Tape)
    (hg : ∀ gl, g = some gl → OptsOK b gl) (ht : OptsOK b t) :
    OptsOK b (pickbetter g c t tape).1.1 := by
  unfold pickbetter
  cases g with
  | none => exact ht
  | some bl =>
    have hbl : OptsOK b bl := hg bl rfl
    by_cases h1 : t.length < bl.length
    · simpa [h1] using ht
    · by_cases h2 : t.length > bl.length
      · simpa [h1, h2] using hbl
      · by_cases h3 : (randint c tape).1 = 0 <;> simp [h1, h2, h3] <;>
          first | exact ht | exact hbl

theorem allowedAt_filled (b : Board) (j : Nat) (h : b.getD j none ≠ none) :
    allowedAt b j = 0 := by
  unfold allowedAt
  rw [if_neg h]
  simp [Nat.zero_and]

theorem FBallowed_empty_of_ne (b : Board) (hb : b.length = 81) (pos : Nat)
    (hpos : pos < 81) (h : (FBallowed b).getD pos 0 ≠ 0) : b.getD pos none = none := by
  by_contra hfill
  rw [FBallowed_getD b hb pos hpos, allowedAt_filled b pos hfill] at h
  exact h rfl

theorem empty_of_BExt {b b' : Board} (h : BExt b b') {j : Nat}
    (hj : b'.getD j none = none) : b.getD j none = none := by
  by_contra hfill
  rw [h.2 j hfill] at hj
  exact hfill hj

/-- The combined invariant of a `deduce` iteration starting at board `b`:
the working board extends `b`, a still-stuck state has not touched the
board, an unstuck state has strictly fewer empty cells, and any recorded
guess list is well-formed for `b`. -/
def DInv (b : Board) (s : DSt) : Prop :=
  BExt b s.board ∧ (s.stuck = true → s.board = b) ∧
    (s.stuck = false → emptyCount s.board < emptyCount b) ∧
    (∀ gl, s.guess = some gl → OptsOK b gl)

theorem count_set {α : Type} [DecidableEq α] (l : List α) :
    ∀ (k : Nat) (v d x : α), k < l.length →
      (l.set k v).count x + (if l.getD k d = x then 1 else 0) =
        l.count x + (if v = x then 1 else 0) := by
  induction l with
  | nil => intro k v d x hk; exact absurd hk (by simp)
  | cons a l ih =>
    intro k v d x hk
    cases k with
    | zero =>
      simp only [List.set_cons_zero, List.getD_cons_zero, List.count_cons, beq_iff_eq]
      omega
    | succ k =>
      simp only [List.set_cons_succ, List.getD_cons_succ, List.count_cons, beq_iff_eq]
      have := ih k v d x (by simpa using hk)
      omega

theorem lswap_eq_some {α : Type} {l : List α} {i j : Nat} {a b : α}
    (hi : l.get? i = some a) (hj : l.get? j = some b) :
    lswap l i j = (l.set i b).set j a := by
  unfold lswap
  rw [hi, hj]

theorem lswap_perm {α : Type} [DecidableEq α] (l : List α) (i j : Nat) :
    (lswap l i j).Perm l := by
  cases hi : l.get? i with
  | none =>
    have : lswap l i j = l := by
      unfold lswap
      rw [hi]
    rw [this]
  | some a =>
    cases hj : l.get? j with
    | none =>
      have : lswap l i j = l := by
        unfold lswap
        rw [hi, hj]
      rw [this]
    | some b =>
      rw [lswap_eq_some hi hj]
      have hil : i < l.length := List.get?_eq_some.1 hi |>.1
      have hjl : j < l.length := List.get?_eq_some.1 hj |>.1
      rw [List.perm_iff_count]
      intro x
      have hgi : l.getD i a = a := by
        rw [List.getD_eq_getD_get?, hi]; rfl
      have hgj : l.getD j a = b := by
        rw [List.getD_eq_getD_get?, hj]; rfl
      have h1 := count_set (l.set i b) j a a x (by simpa using hjl)
      have h2 := count_set l i b a x hil
      rcases eq_or_ne i j with rfl | hne
      · have hab : a = b := by rw [hi] at hj; exact Option.some_inj.1 hj
        subst hab
        have hset : (l.set i a).getD i a = a := by
          rw [List.getD_eq_getD_get?, List.get?_set_eq_of_lt _ hil]; rfl
        rw [hset] at h1
        rw [hgi] at h2
        omega
      · have hset : (l.set i b).getD j a = l.getD j a := by
          rw [List.getD_eq_getD_get?, List.get?_set_ne _ _ hne, List.getD_eq_getD_get?]
        rw [hset, hgj] at h1
        rw [hgi] at h2
        omega

theorem pyshuffleGo_perm {α : Type} [DecidableEq α] (i : Nat) :
    ∀ (l : List α) (t : Tape), (pyshuffleGo l t i).1.Perm l := by
  induction i with
  | zero => intro l t; exact List.Perm.refl l
  | succ i ih =>
    intro l t
    unfold pyshuffleGo
    exact (ih _ _).trans (lswap_perm l (i + 1) _)

theorem pyshuffle_perm {α : Type} [DecidableEq α] (l : List α) (t : Tape) :
    (pyshuffle l t).1.Perm l := pyshuffleGo_perm _ l t

theorem OptsOK_of_perm {b : Board} {gl gl' : Opts} (h : OptsOK b gl)
    (hp : gl'.Perm gl) : OptsOK b gl' := by
  refine ⟨?_, ?_, ?_⟩
  · intro he
    rw [he] at hp
    exact h.1 hp.symm.eq_nil
  · rw [hp.length_eq]; exact h.2.1
  · intro pn hpn
    exact h.2.2 pn (hp.mem_iff.1 hpn)

theorem pass1step_inv (b : Board) (hb : b.length = 81) (al : List Nat)
    (s : DSt) (pos : Nat) (hpos : pos < 81) (hinv : DInv b s) :
    ∀ s', pass1step al s pos = Except.ok s' → DInv b s' := by
  intro s' hstep
  unfold pass1step at hstep
  by_cases hcell : s.board.getD pos none = none
  · rw [if_pos hcell] at hstep
    by_cases h0 : (listbits (al.getD pos 0)).length = 0
    · rw [if_pos h0] at hstep
      exact absurd hstep (by simp)
    · rw [if_neg h0] at hstep
      have hbempty : b.getD pos none = none := empty_of_BExt hinv.1 hcell
      by_cases h1 : (listbits (al.getD pos 0)).length = 1
      · rw [if_pos h1] at hstep
        cases hstep
        refine ⟨BExt_set hinv.1 pos _ hbempty, fun h => by simp at h, fun _ => ?_, ?_⟩
        · cases hs : s.stuck
          · calc emptyCount (s.board.set pos _) ≤ emptyCount s.board :=
                  emptyCount_set_le _ _ _
              _ < emptyCount b := hinv.2.2.1 hs
          · rw [hinv.2.1 hs]
            exact emptyCount_set_lt b pos _ hpos (by omega) hbempty
        · exact hinv.2.2.2
      · rw [if_neg h1] at hstep
        by_cases hstuck : s.stuck = true
        · rw [if_pos hstuck] at hstep
          cases hstep
          refine ⟨hinv.1, hinv.2.1, fun h => absurd (h ▸ hstuck) (by simp), ?_⟩
          intro gl hgl
          cases hgl
          refine pickbetter_ok b s.guess s.count _ s.tape hinv.2.2.2 ?_
          refine ⟨?_, ?_, ?_⟩
          · intro he
            have := congrArg List.length he
            simp only [List.length_map, List.length_nil] at this
            omega
          · rw [List.length_map]; exact listbits_length_le _
          · intro pn hpn
            obtain ⟨m, hm, hpn'⟩ := List.mem_map.1 hpn
            cases hpn'
            exact ⟨hpos, listbits_mem_lt hm, hbempty⟩
        · rw [if_neg hstuck] at hstep
          cases hstep
          exact hinv
  · rw [if_neg hcell] at hstep
    cases hstep
    exact hinv

theorem pass1_DInv (b : Board) (hb : b.length = 81) (al : List Nat) (t : Tape)
    (s' : DSt)
    (h : pass1 al { board := b, stuck := true, guess := none, count := 0, tape := t }
        = Except.ok s') :
    DInv b s' := by
  refine foldlM_except_inv _ (DInv b) (List.range 81) _ ?_ ?_ s' h
  · exact ⟨BExt_refl b, fun _ => rfl, fun hf => by simp at hf, fun gl hgl => by simp at hgl⟩
  · intro s a ha hP s'' hf
    exact pass1step_inv b hb al s a (List.mem_range.1 ha) hP s'' hf

theorem spots_mem {al : List Nat} {x axis bitn pos : Nat}
    (h : pos ∈ ((List.range 9).map (fun y => posfor x y axis)).filter
      (fun p => al.getD p 0 &&& bitn ≠ 0)) :
    (∃ y < 9, posfor x y axis = pos) ∧ al.getD pos 0 ≠ 0 := by
  rw [List.mem_filter] at h
  obtain ⟨hmem, hp⟩ := h
  obtain ⟨y, hy, hpy⟩ := List.mem_map.1 hmem
  have hand : al.getD pos 0 &&& bitn ≠ 0 := by simpa using hp
  refine ⟨⟨y, List.mem_range.1 hy, hpy⟩, fun h0 => hand ?_⟩
  rw [h0, Nat.zero_and]

theorem spots_length_le (al : List Nat) (x axis bitn : Nat) :
    (((List.range 9).map (fun y => posfor x y axis)).filter
      (fun p => al.getD p 0 &&& bitn ≠ 0)).length ≤ 9 := by
  calc _ ≤ ((List.range 9).map (fun y => posfor x y axis)).length :=
        List.length_filter_le _ _
    _ = 9 := by rw [List.length_map, List.length_range]

theorem headD_mem {l : List Nat} (h : l ≠ []) : l.headD 0 ∈ l := by
  cases l with
  | nil => exact absurd rfl h
  | cons a tl => exact List.mem_cons_self a tl

theorem pass2n_inv (b bA : Board) (hb : b.length = 81) (hbA : bA.length = 81)
    (hAb : BExt b bA) (x axis : Nat) (hx : x < 9) (haxis : axis < 3)
    (s : DSt) (n : Nat) (hn : n < 9)
    (hinv : DInv b s) (hA : s.stuck = true → bA = b) :
    ∀ s', pass2n (FBallowed bA) x axis s n = Except.ok s' →
      DInv b s' ∧ (s'.stuck = true → bA = b) := by
  intro s' hstep
  unfold pass2n at hstep
  set spots := ((List.range 9).map (fun y => posfor x y axis)).filter
    (fun p => (FBallowed bA).getD p 0 &&& (1 <<< n) ≠ 0) with hspots
  have hspot_facts : ∀ q ∈ spots, q < 81 ∧ b.getD q none = none ∧ bA.getD q none = none := by
    intro q hq
    obtain ⟨⟨y, hy, hpy⟩, hne⟩ := spots_mem hq
    have hq81 : q < 81 := hpy ▸ posfor_lt axis haxis x hx y hy
    have hAempty : bA.getD q none = none := FBallowed_empty_of_ne bA hbA q hq81 hne
    exact ⟨hq81, empty_of_BExt hAb hAempty, hAempty⟩
  by_cases h0 : spots.length = 0
  · rw [if_pos h0] at hstep
    exact absurd hstep (by simp)
  · rw [if_neg h0] at hstep
    by_cases h1 : spots.length = 1
    · rw [if_pos h1] at hstep
      cases hstep
      have hqmem : spots.headD 0 ∈ spots := headD_mem (fun he => h0 (by rw [he]; rfl))
      obtain ⟨hq81, hqb, hqA⟩ := hspot_facts _ hqmem
      refine ⟨⟨BExt_set hinv.1 _ _ hqb, fun h => by simp at h, fun _ => ?_, hinv.2.2.2⟩,
        fun h => by simp at h⟩
      cases hs : s.stuck
      · calc emptyCount (s.board.set (spots.headD 0) _) ≤ emptyCount s.board :=
              emptyCount_set_le _ _ _
          _ < emptyCount b := hinv.2.2.1 hs
      · rw [hinv.2.1 hs]
        refine emptyCount_set_lt b _ _ hq81 (by omega) ?_
        rw [← hA hs]
        exact hqA
    · rw [if_neg h1] at hstep
      by_cases hstuck : s.stuck = true
      · rw [if_pos hstuck] at hstep
        cases hstep
        refine ⟨⟨hinv.1, hinv.2.1, fun h => absurd (h ▸ hstuck) (by simp), ?_⟩, fun _ => hA hstuck⟩
        intro gl hgl
        cases hgl
        refine pickbetter_ok b s.guess s.count _ s.tape hinv.2.2.2 ?_
        refine ⟨?_, ?_, ?_⟩
        · intro he
          have := congrArg List.length he
          simp only [List.length_map, List.length_nil] at this
          omega
        · rw [List.length_map]; exact spots_length_le _ _ _ _
        · intro pn hpn
          obtain ⟨q, hq, hpn'⟩ := List.mem_map.1 hpn
          cases hpn'
          obtain ⟨hq81, hqb, _⟩ := hspot_facts q hq
          exact ⟨hq81, hn, hqb⟩
      · rw [if_neg hstuck] at hstep
        cases hstep
        exact ⟨hinv, hA⟩

theorem pass2_DInv (b bA : Board) (hb : b.length = 81) (hbA : bA.length = 81)
    (hAb : BExt b bA) (nd : List Nat) (s1 : DSt)
    (hinv : DInv b s1) (hA : s1.stuck = true → bA = b) :
    ∀ s', pass2 (FBallowed bA) nd s1 = Except.ok s' →
      DInv b s' ∧ (s'.stuck = true → bA = b) := by
  refine foldlM_except_inv _ (fun s => DInv b s ∧ (s.stuck = true → bA = b))
    (List.range 3) s1 ⟨hinv, hA⟩ ?_
  intro s axis ha hP s' hf
  refine foldlM_except_inv _ (fun s => DInv b s ∧ (s.stuck = true → bA = b))
    (List.range 9) s hP ?_ s' hf
  intro s2 x hx hP2 s3 hf2
  refine foldlM_except_inv _ (fun s => DInv b s ∧ (s.stuck = true → bA = b))
    (listbits (nd.getD (axis * 9 + x) 0)) s2 hP2 ?_ s3 hf2
  intro s4 n hnmem hP4 s5 hf4
  exact pass2n_inv b bA hb hbA hAb x axis (List.mem_range.1 hx) (List.mem_range.1 ha)
    s4 n (listbits_mem_lt hnmem) hP4.1 hP4.2 s5 hf4

theorem pass1step_err (al : List Nat) (s : DSt) (pos : Nat) :
    ∀ e, pass1step al s pos = Except.error e → e = (s.board, s.tape) := by
  intro e h
  unfold pass1step at h
  by_cases hcell : s.board.getD pos none = none
  · rw [if_pos hcell] at h
    by_cases h0 : (listbits (al.getD pos 0)).length = 0
    · rw [if_pos h0] at h
      cases h
      rfl
    · rw [if_neg h0] at h
      by_cases h1 : (listbits (al.getD pos 0)).length = 1
      · rw [if_pos h1] at h; cases h
      · rw [if_neg h1] at h
        by_cases hstuck : s.stuck = true
        · rw [if_pos hstuck] at h; cases h
        · rw [if_neg hstuck] at h; cases h
  · rw [if_neg hcell] at h
    cases h

theorem pass2n_err (al : List Nat) (x axis : Nat) (s : DSt) (n : Nat) :
    ∀ e, pass2n al x axis s n = Except.error e → e = (s.board, s.tape) := by
  intro e h
  unfold pass2n at h
  set spots := ((List.range 9).map (fun y => posfor x y axis)).filter
    (fun p => al.getD p 0 &&& (1 <<< n) ≠ 0) with hspots
  by_cases h0 : spots.length = 0
  · rw [if_pos h0] at h
    cases h
    rfl
  · rw [if_neg h0] at h
    by_cases h1 : spots.length = 1
    · rw [if_pos h1] at h; cases h
    · rw [if_neg h1] at h
      by_cases hstuck : s.stuck = true
      · rw [if_pos hstuck] at h; cases h
      · rw [if_neg hstuck] at h; cases h

theorem DInv_init (b : Board) (t : Tape) :
    DInv b { board := b, stuck := true, guess := none, count := 0, tape := t } :=
  ⟨BExt_refl b, fun _ => rfl, fun hf => by simp at hf, fun gl hgl => by simp at hgl⟩

theorem pass1_err (b : Board) (hb : b.length = 81) (al : List Nat) (t : Tape) :
    ∀ e, pass1 al { board := b, stuck := true, guess := none, count := 0, tape := t }
        = Except.error e → BExt b e.1 := by
  refine foldlM_except_err _ (DInv b) (fun (e : Board × Tape) => BExt b e.1)
    (List.range 81) _ (DInv_init b t)
    (fun s a ha hP s'' hf => pass1step_inv b hb al s a (List.mem_range.1 ha) hP s'' hf)
    ?_
  intro s a _ hP e hf
  rw [pass1step_err al s a e hf]
  exact hP.1

theorem pass2_err (b bA : Board) (hb : b.length = 81) (hbA : bA.length = 81)
    (hAb : BExt b bA) (nd : List Nat) (s1 : DSt)
    (hinv : DInv b s1) (hA : s1.stuck = true → bA = b) :
    ∀ e, pass2 (FBallowed bA) nd s1 = Except.error e → BExt b e.1 := by
  refine foldlM_except_err _ (fun s => DInv b s ∧ (s.stuck = true → bA = b))
    (fun (e : Board × Tape) => BExt b e.1) (List.range 3) s1 ⟨hinv, hA⟩ ?_ ?_
  · intro s axis ha hP s' hf
    refine foldlM_except_inv _ (fun s => DInv b s ∧ (s.stuck = true → bA = b))
      (List.range 9) s hP ?_ s' hf
    intro s2 x hx hP2 s3 hf2
    refine foldlM_except_inv _ (fun s => DInv b s ∧ (s.stuck = true → bA = b))
      (listbits (nd.getD (axis * 9 + x) 0)) s2 hP2 ?_ s3 hf2
    intro s4 n hnmem hP4 s5 hf4
    exact pass2n_inv b bA hb hbA hAb x axis (List.mem_range.1 hx) (List.mem_range.1 ha)
      s4 n (listbits_mem_lt hnmem) hP4.1 hP4.2 s5 hf4
  · intro s axis ha hP e hf
    refine foldlM_except_err _ (fun s => DInv b s ∧ (s.stuck = true → bA = b))
      (fun (e : Board × Tape) => BExt b e.1) (List.range 9) s hP ?_ ?_ e hf
    · intro s2 x hx hP2 s3 hf2
      refine foldlM_except_inv _ (fun s => DInv b s ∧ (s.stuck = true → bA = b))
        (listbits (nd.getD (axis * 9 + x) 0)) s2 hP2 ?_ s3 hf2
      intro s4 n hnmem hP4 s5 hf4
      exact pass2n_inv b bA hb hbA hAb x axis (List.mem_range.1 hx) (List.mem_range.1 ha)
        s4 n (listbits_mem_lt hnmem) hP4.1 hP4.2 s5 hf4
    · intro s2 x hx hP2 e2 hf2
      refine foldlM_except_err _ (fun s => DInv b s ∧ (s.stuck = true → bA = b))
        (fun (e : Board × Tape) => BExt b e.1) (listbits (nd.getD (axis * 9 + x) 0)) s2 hP2 ?_ ?_ e2 hf2
      · intro s4 n hnmem hP4 s5 hf4
        exact pass2n_inv b bA hb hbA hAb x axis (List.mem_range.1 hx) (List.mem_range.1 ha)
          s4 n (listbits_mem_lt hnmem) hP4.1 hP4.2 s5 hf4
      · intro s4 n _ hP4 e4 hf4
        rw [pass2n_err _ x axis s4 n e4 hf4]
        exact hP4.1.1

theorem figurebits_fst (b : Board) : (figurebits b).1 = FBallowed b := by
  rw [figurebits_split]

theorem figurebits_snd (b : Board) : (figurebits b).2 = FBneeded b := by
  rw [figurebits_split]

theorem deduceLoop_succ (fuel : Nat) (b : Board) (t : Tape) :
    deduceLoop (fuel + 1) b t =
      (match pass1 (figurebits b).1
          { board := b, stuck := true, guess := none, count := 0, tape := t } with
       | Except.error bt => some (bt.1, some [], bt.2)
       | Except.ok s1 =>
         match pass2 (if s1.stuck then figurebits b else figurebits s1.board).1
             (if s1.stuck then figurebits b else figurebits s1.board).2 s1 with
         | Except.error bt => some (bt.1, some [], bt.2)
         | Except.ok s2 =>
           if s2.stuck then
             match s2.guess with
             | none => some (s2.board, none, s2.tape)
             | some g =>
               some (s2.board, some (pyshuffle g s2.tape).1, (pyshuffle g s2.tape).2)
           else deduceLoop fuel s2.board s2.tape) := rfl

theorem deduceLoop_inv (fuel : Nat) :
    ∀ (b : Board) (t : Tape), b.length = 81 →
      ∀ res : Board × Option Opts × Tape, deduceLoop fuel b t = some res →
        BExt b res.1 ∧ (∀ gl, res.2.1 = some gl → gl = [] ∨ OptsOK res.1 gl) := by
  induction fuel with
  | zero =>
    intro b t hb res h
    exact absurd h (by simp [deduceLoop])
  | succ fuel ih =>
    intro b t hb res h
    rw [deduceLoop_succ] at h
    split at h
    · rename_i bt hp1
      cases h
      exact ⟨pass1_err b hb _ t bt hp1, fun gl hgl => Or.inl (Option.some_inj.1 hgl).symm⟩
    · rename_i s1 hp1
      have hs1 : DInv b s1 := pass1_DInv b hb _ t s1 hp1
      have hblen : s1.board.length = 81 := by rw [hs1.1.1, hb]
      have hsplit2 : ∀ s', pass2 (if s1.stuck then figurebits b else figurebits s1.board).1
            (if s1.stuck then figurebits b else figurebits s1.board).2 s1 = Except.ok s' →
            DInv b s' ∧ (s'.stuck = true → True) := by
        intro s' hp2
        by_cases hstuck : s1.stuck = true
        · rw [if_pos hstuck, figurebits_fst, figurebits_snd] at hp2
          exact ⟨(pass2_DInv b b hb hb (BExt_refl b) (FBneeded b) s1 hs1
            (fun _ => rfl) s' hp2).1, fun _ => trivial⟩
        · rw [if_neg hstuck, figurebits_fst, figurebits_snd] at hp2
          exact ⟨(pass2_DInv b s1.board hb hblen hs1.1 (FBneeded s1.board) s1 hs1
            (fun h => absurd h hstuck) s' hp2).1, fun _ => trivial⟩
      have herr2 : ∀ e, pass2 (if s1.stuck then figurebits b else figurebits s1.board).1
            (if s1.stuck then figurebits b else figurebits s1.board).2 s1 = Except.error e →
            BExt b e.1 := by
        intro e hp2
        by_cases hstuck : s1.stuck = true
        · rw [if_pos hstuck, figurebits_fst, figurebits_snd] at hp2
          exact pass2_err b b hb hb (BExt_refl b) (FBneeded b) s1 hs1 (fun _ => rfl) e hp2
        · rw [if_neg hstuck, figurebits_fst, figurebits_snd] at hp2
          exact pass2_err b s1.board hb hblen hs1.1 (FBneeded s1.board) s1 hs1
            (fun h => absurd h hstuck) e hp2
      split at h
      · rename_i bt hp2
        cases h
        exact ⟨herr2 bt hp2, fun gl hgl => Or.inl (Option.some_inj.1 hgl).symm⟩
      · rename_i s2 hp2
        have hs2 : DInv b s2 := (hsplit2 s2 hp2).1
        by_cases hstuck2 : s2.stuck = true
        · rw [if_pos hstuck2] at h
          split at h
          · rename_i hg
            cases h
            exact ⟨hs2.1, fun gl hgl => by simp at hgl⟩
          · rename_i g hg
            cases h
            refine ⟨hs2.1, fun gl hgl => ?_⟩
            have hgl' : gl = (pyshuffle g s2.tape).1 := (Option.some_inj.1 hgl).symm
            subst hgl'
            have hok : OptsOK b g := hs2.2.2.2 g hg
            rw [← hs2.2.1 hstuck2] at hok
            exact Or.inr (OptsOK_of_perm hok (pyshuffle_perm g s2.tape))
        · rw [if_neg hstuck2] at h
          have hrec := ih s2.board s2.tape (by rw [hs2.1.1, hb]) res h
          exact ⟨BExt_trans hs2.1 hrec.1, hrec.2⟩

theorem deduceLoop_isSome (fuel : Nat) :
    ∀ (b : Board) (t : Tape), b.length = 81 → emptyCount b < fuel →
      (deduceLoop fuel b t).isSome := by
  induction fuel with
  | zero => intro b t _ hf; exact absurd hf (by omega)
  | succ fuel ih =>
    intro b t hb hf
    rw [deduceLoop_succ]
    split
    · simp
    · rename_i s1 hp1
      have hs1 : DInv b s1 := pass1_DInv b hb _ t s1 hp1
      have hblen : s1.board.length = 81 := by rw [hs1.1.1, hb]
      split
      · simp
      · rename_i s2 hp2
        have hs2 : DInv b s2 := by
          by_cases hstuck : s1.stuck = true
          · rw [if_pos hstuck, figurebits_fst, figurebits_snd] at hp2
            exact (pass2_DInv b b hb hb (BExt_refl b) (FBneeded b) s1 hs1
              (fun _ => rfl) s2 hp2).1
          · rw [if_neg hstuck, figurebits_fst, figurebits_snd] at hp2
            exact (pass2_DInv b s1.board hb hblen hs1.1 (FBneeded s1.board) s1 hs1
              (fun h => absurd h hstuck) s2 hp2).1
        by_cases hstuck2 : s2.stuck = true
        · rw [if_pos hstuck2]
          split <;> simp
        · rw [if_neg hstuck2]
          refine ih s2.board s2.tape (by rw [hs2.1.1, hb]) ?_
          have hlt : emptyCount s2.board < emptyCount b :=
            hs2.2.2.1 (by simpa using hstuck2)
          omega

theorem deduce_eq (b : Board) (t : Tape) (hb : b.length = 81) :
    deduceLoop 82 b t = some (deduce b t) := by
  have h := deduceLoop_isSome 82 b t hb
    (lt_of_le_of_lt (emptyCount_le_81 b) (by norm_num))
  obtain ⟨r, hr⟩ := Option.isSome_iff_exists.1 h
  unfold deduce
  rw [hr]
  rfl

theorem deduce_facts (b : Board) (t : Tape) (hb : b.length = 81) :
    BExt b (deduce b t).1 ∧
      (∀ gl, (deduce b t).2.1 = some gl → gl = [] ∨ OptsOK (deduce b t).1 gl) :=
  deduceLoop_inv 82 b t hb (deduce b t) (deduce_eq b t hb)

theorem pass1step_stuckfalse (al : List Nat) (s : DSt) (pos : Nat)
    (hs : s.stuck = false) :
    ∀ s', pass1step al s pos = Except.ok s' → s'.stuck = false := by
  intro s' h
  unfold pass1step at h
  by_cases hcell : s.board.getD pos none = none
  · rw [if_pos hcell] at h
    by_cases h0 : (listbits (al.getD pos 0)).length = 0
    · rw [if_pos h0] at h; cases h
    · rw [if_neg h0] at h
      by_cases h1 : (listbits (al.getD pos 0)).length = 1
      · rw [if_pos h1] at h; cases h; rfl
      · rw [if_neg h1, if_neg (by rw [hs]; simp)] at h
        cases h
        exact hs
  · rw [if_neg hcell] at h; cases h; exact hs

theorem pass1step_guesssome (al : List Nat) (s : DSt) (pos : Nat)
    (hs : s.guess ≠ none) :
    ∀ s', pass1step al s pos = Except.ok s' → s'.guess ≠ none := by
  intro s' h
  unfold pass1step at h
  by_cases hcell : s.board.getD pos none = none
  · rw [if_pos hcell] at h
    by_cases h0 : (listbits (al.getD pos 0)).length = 0
    · rw [if_pos h0] at h; cases h
    · rw [if_neg h0] at h
      by_cases h1 : (listbits (al.getD pos 0)).length = 1
      · rw [if_pos h1] at h; cases h; exact hs
      · rw [if_neg h1] at h
        by_cases hstuck : s.stuck = true
        · rw [if_pos hstuck] at h; cases h; simp
        · rw [if_neg hstuck] at h; cases h; exact hs
  · rw [if_neg hcell] at h; cases h; exact hs

theorem pass2n_stuckfalse (al : List Nat) (x axis : Nat) (s : DSt) (n : Nat)
    (hs : s.stuck = false) :
    ∀ s', pass2n al x axis s n = Except.ok s' → s'.stuck = false := by
  intro s' h
  unfold pass2n at h
  set spots := ((List.range 9).map (fun y => posfor x y axis)).filter
    (fun p => al.getD p 0 &&& (1 <<< n) ≠ 0) with hspots
  by_cases h0 : spots.length = 0
  · rw [if_pos h0] at h; cases h
  · rw [if_neg h0] at h
    by_cases h1 : spots.length = 1
    · rw [if_pos h1] at h; cases h; rfl
    · rw [if_neg h1, if_neg (by rw [hs]; simp)] at h
      cases h
      exact hs

theorem pass2n_guesssome (al : List Nat) (x axis : Nat) (s : DSt) (n : Nat)
    (hs : s.guess ≠ none) :
    ∀ s', pass2n al x axis s n = Except.ok s' → s'.guess ≠ none := by
  intro s' h
  unfold pass2n at h
  set spots := ((List.range 9).map (fun y => posfor x y axis)).filter
    (fun p => al.getD p 0 &&& (1 <<< n) ≠ 0) with hspots
  by_cases h0 : spots.length = 0
  · rw [if_pos h0] at h; cases h
  · rw [if_neg h0] at h
    by_cases h1 : spots.length = 1
    · rw [if_pos h1] at h; cases h; exact hs
    · rw [if_neg h1] at h
      by_cases hstuck : s.stuck = true
      · rw [if_pos hstuck] at h; cases h; simp
      · rw [if_neg hstuck] at h; cases h; exact hs

theorem pass1_fold_stuckfalse (al : List Nat) (l : List Nat) (s : DSt)
    (hs : s.stuck = false) :
    ∀ s', l.foldlM (fun s pos => pass1step al s pos) s = Except.ok s' →
      s'.stuck = false := by
  intro s' h
  exact foldlM_except_inv _ (fun s => s.stuck = false) l s hs
    (fun s a _ hP s'' hf => pass1step_stuckfalse al s a hP s'' hf) s' h

theorem pass1_fold_guesssome (al : List Nat) (l : List Nat) (s : DSt)
    (hs : s.guess ≠ none) :
    ∀ s', l.foldlM (fun s pos => pass1step al s pos) s = Except.ok s' →
      s'.guess ≠ none := by
  intro s' h
  exact foldlM_except_inv _ (fun s => s.guess ≠ none) l s hs
    (fun s a _ hP s'' hf => pass1step_guesssome al s a hP s'' hf) s' h

theorem pass1_stuck_none (al : List Nat) (l : List Nat) :
    ∀ s : DSt, s.stuck = true → s.guess = none →
      ∀ s', l.foldlM (fun s pos => pass1step al s pos) s = Except.ok s' →
        s'.stuck = true → s'.guess = none →
        s' = s ∧ ∀ pos ∈ l, ¬(s.board.getD pos none = none ∧
          2 ≤ (listbits (al.getD pos 0)).length) ∧
          ¬(s.board.getD pos none = none ∧ (listbits (al.getD pos 0)).length ≤ 1) := by
  induction l with
  | nil =>
    intro s _ _ s' h _ _
    simp only [List.foldlM_nil] at h
    cases h
    exact ⟨rfl, by simp⟩
  | cons a l ih =>
    intro s hstuck hguess s' h hstuck' hguess'
    simp only [List.foldlM_cons] at h
    cases hfa : pass1step al s a with
    | error e =>
      rw [hfa] at h
      exact absurd h (by simp [Bind.bind, Except.bind])
    | ok s1 =>
      rw [hfa] at h
      have hrest : l.foldlM (fun s pos => pass1step al s pos) s1 = Except.ok s' := by
        simpa [Bind.bind, Except.bind] using h
      have hcell : ¬(s.board.getD a none = none) := by
        intro hc
        unfold pass1step at hfa
        rw [if_pos hc] at hfa
        by_cases h0 : (listbits (al.getD a 0)).length = 0
        · rw [if_pos h0] at hfa; cases hfa
        · rw [if_neg h0] at hfa
          by_cases h1 : (listbits (al.getD a 0)).length = 1
          · rw [if_pos h1] at hfa
            cases hfa
            exact absurd (pass1_fold_stuckfalse al l _ rfl s' hrest)
              (by rw [hstuck']; simp)
          · rw [if_neg h1, if_pos hstuck] at hfa
            cases hfa
            exact absurd (pass1_fold_guesssome al l _ (by simp) s' hrest) (by simp [hguess'])
      have hs1 : s1 = s := by
        unfold pass1step at hfa
        rw [if_neg hcell] at hfa
        cases hfa
        rfl
      subst hs1
      obtain ⟨hfix, hrest'⟩ := ih s1 hstuck hguess s' hrest hstuck' hguess'
      refine ⟨hfix, fun pos hpos => ?_⟩
      rcases List.mem_cons.1 hpos with h0 | h1
      · subst h0
        exact ⟨fun hc => hcell hc.1, fun hc => hcell hc.1⟩
      · exact hrest' pos h1

theorem pass2x_stuckfalse (al nd : List Nat) (axis x : Nat) (s : DSt)
    (hs : s.stuck = false) :
    ∀ s', pass2x al nd axis x s = Except.ok s' → s'.stuck = false := by
  intro s' h
  exact foldlM_except_inv _ (fun s => s.stuck = false) _ s hs
    (fun s a _ hP s'' hf => pass2n_stuckfalse al x axis s a hP s'' hf) s' h

theorem pass2x_guesssome (al nd : List Nat) (axis x : Nat) (s : DSt)
    (hs : s.guess ≠ none) :
    ∀ s', pass2x al nd axis x s = Except.ok s' → s'.guess ≠ none := by
  intro s' h
  exact foldlM_except_inv _ (fun s => s.guess ≠ none) _ s hs
    (fun s a _ hP s'' hf => pass2n_guesssome al x axis s a hP s'' hf) s' h

theorem pass2mid_stuckfalse (al nd : List Nat) (axis : Nat) (l : List Nat) (s : DSt)
    (hs : s.stuck = false) :
    ∀ s', l.foldlM (fun s x => pass2x al nd axis x s) s = Except.ok s' →
      s'.stuck = false := by
  intro s' h
  exact foldlM_except_inv _ (fun s => s.stuck = false) l s hs
    (fun s a _ hP s'' hf => pass2x_stuckfalse al nd axis a s hP s'' hf) s' h

theorem pass2mid_guesssome (al nd : List Nat) (axis : Nat) (l : List Nat) (s : DSt)
    (hs : s.guess ≠ none) :
    ∀ s', l.foldlM (fun s x => pass2x al nd axis x s) s = Except.ok s' →
      s'.guess ≠ none := by
  intro s' h
  exact foldlM_except_inv _ (fun s => s.guess ≠ none) l s hs
    (fun s a _ hP s'' hf => pass2x_guesssome al nd axis a s hP s'' hf) s' h

theorem pass2nfold_stuckfalse (al : List Nat) (axis x : Nat) (l : List Nat) (s : DSt)
    (hs : s.stuck = false) :
    ∀ s', l.foldlM (fun s n => pass2n al x axis s n) s = Except.ok s' →
      s'.stuck = false := by
  intro s' h
  exact foldlM_except_inv _ (fun s => s.stuck = false) l s hs
    (fun s a _ hP s'' hf => pass2n_stuckfalse al x axis s a hP s'' hf) s' h

theorem pass2nfold_guesssome (al : List Nat) (axis x : Nat) (l : List Nat) (s : DSt)
    (hs : s.guess ≠ none) :
    ∀ s', l.foldlM (fun s n => pass2n al x axis s n) s = Except.ok s' →
      s'.guess ≠ none := by
  intro s' h
  exact foldlM_except_inv _ (fun s => s.guess ≠ none) l s hs
    (fun s a _ hP s'' hf => pass2n_guesssome al x axis s a hP s'' hf) s' h

theorem pass2x_stuck_none (al nd : List Nat) (axis x : Nat) :
    ∀ s : DSt, s.stuck = true → s.guess = none →
      ∀ s', pass2x al nd axis x s = Except.ok s' → s'.stuck = true → s'.guess = none →
        s' = s ∧ listbits (nd.getD (axis * 9 + x) 0) = [] := by
  intro s hstuck hguess s' h hstuck' hguess'
  unfold pass2x at h
  cases hl : listbits (nd.getD (axis * 9 + x) 0) with
  | nil =>
    rw [hl] at h
    simp only [List.foldlM_nil] at h
    cases h
    exact ⟨rfl, rfl⟩
  | cons n ns =>
    rw [hl] at h
    simp only [List.foldlM_cons] at h
    cases hfa : pass2n al x axis s n with
    | error e =>
      rw [hfa] at h
      exact absurd h (by simp [Bind.bind, Except.bind])
    | ok s1 =>
      rw [hfa] at h
      have hrest : ns.foldlM (fun s n => pass2n al x axis s n) s1 = Except.ok s' := by
        simpa [Bind.bind, Except.bind] using h
      exfalso
      unfold pass2n at hfa
      set spots := ((List.range 9).map (fun y => posfor x y axis)).filter
        (fun p => al.getD p 0 &&& (1 <<< n) ≠ 0) with hspots
      by_cases h0 : spots.length = 0
      · rw [if_pos h0] at hfa; cases hfa
      · rw [if_neg h0] at hfa
        by_cases h1 : spots.length = 1
        · rw [if_pos h1] at hfa
          cases hfa
          exact absurd (pass2nfold_stuckfalse al axis x ns _ rfl s' hrest)
            (by rw [hstuck']; simp)
        · rw [if_neg h1, if_pos hstuck] at hfa
          cases hfa
          exact absurd (pass2nfold_guesssome al axis x ns _ (by simp) s' hrest)
            (by simp [hguess'])

theorem pass2mid_stuck_none (al nd : List Nat) (axis : Nat) (l : List Nat) :
    ∀ s : DSt, s.stuck = true → s.guess = none →
      ∀ s', l.foldlM (fun s x => pass2x al nd axis x s) s = Except.ok s' →
        s'.stuck = true → s'.guess = none →
        s' = s ∧ ∀ x ∈ l, listbits (nd.getD (axis * 9 + x) 0) = [] := by
  induction l with
  | nil =>
    intro s _ _ s' h _ _
    simp only [List.foldlM_nil] at h
    cases h
    exact ⟨rfl, by simp⟩
  | cons x0 l ih =>
    intro s hstuck hguess s' h hstuck' hguess'
    simp only [List.foldlM_cons] at h
    cases hfa : pass2x al nd axis x0 s with
    | error e =>
      rw [hfa] at h
      exact absurd h (by simp [Bind.bind, Except.bind])
    | ok s1 =>
      rw [hfa] at h
      have hrest : l.foldlM (fun s x => pass2x al nd axis x s) s1 = Except.ok s' := by
        simpa [Bind.bind, Except.bind] using h
      have hs1stuck : s1.stuck = true := by
        by_contra hc
        exact absurd (pass2mid_stuckfalse al nd axis l s1 (by simpa using hc) s' hrest)
          (by rw [hstuck']; simp)
      have hs1guess : s1.guess = none := by
        by_contra hc
        exact absurd (pass2mid_guesssome al nd axis l s1 hc s' hrest) (by simp [hguess'])
      obtain ⟨hfix1, hbits1⟩ := pass2x_stuck_none al nd axis x0 s hstuck hguess s1 hfa
        hs1stuck hs1guess
      subst hfix1
      obtain ⟨hfix, hrest'⟩ := ih s1 hstuck hguess s' hrest hstuck' hguess'
      refine ⟨hfix, fun x hx => ?_⟩
      rcases List.mem_cons.1 hx with h0 | h1
      · subst h0; exact hbits1
      · exact hrest' x h1

theorem pass2_stuck_none (al nd : List Nat) :
    ∀ s : DSt, s.stuck = true → s.guess = none →
      ∀ s', pass2 al nd s = Except.ok s' → s'.stuck = true → s'.guess = none →
        s' = s ∧ ∀ axis < 3, ∀ x < 9, listbits (nd.getD (axis * 9 + x) 0) = [] := by
  intro s hstuck hguess s' h hstuck' hguess'
  unfold pass2 at h
  have main : ∀ (laxes : List Nat) (s : DSt), s.stuck = true → s.guess = none →
      ∀ s', laxes.foldlM (fun s axis =>
          (List.range 9).foldlM (fun s x => pass2x al nd axis x s) s) s = Except.ok s' →
        s'.stuck = true → s'.guess = none →
        s' = s ∧ ∀ axis ∈ laxes, ∀ x < 9, listbits (nd.getD (axis * 9 + x) 0) = [] := by
    intro laxes
    induction laxes with
    | nil =>
      intro s _ _ s' h _ _
      simp only [List.foldlM_nil] at h
      cases h
      exact ⟨rfl, by simp⟩
    | cons a0 laxes ih =>
      intro s hstuck hguess s' h hstuck' hguess'
      simp only [List.foldlM_cons] at h
      cases hfa : (List.range 9).foldlM (fun s x => pass2x al nd a0 x s) s with
      | error e =>
        rw [hfa] at h
        exact absurd h (by simp [Bind.bind, Except.bind])
      | ok s1 =>
        rw [hfa] at h
        have hrest : laxes.foldlM (fun s axis =>
            (List.range 9).foldlM (fun s x => pass2x al nd axis x s) s) s1
            = Except.ok s' := by
          simpa [Bind.bind, Except.bind] using h
        have hs1stuck : s1.stuck = true := by
          by_contra hc
          refine absurd (foldlM_except_inv _ (fun s => s.stuck = false) laxes s1
            (by simpa using hc) ?_ s' hrest) (by simp [hstuck'])
          intro s2 a _ hP s3 hf
          exact pass2mid_stuckfalse al nd a (List.range 9) s2 hP s3 hf
        have hs1guess : s1.guess = none := by
          by_contra hc
          refine absurd (foldlM_except_inv _ (fun s => s.guess ≠ none) laxes s1 hc
            ?_ s' hrest) (by simp only []; simp [hguess'])
          intro s2 a _ hP s3 hf
          exact pass2mid_guesssome al nd a (List.range 9) s2 hP s3 hf
        obtain ⟨hfix1, hbits1⟩ := pass2mid_stuck_none al nd a0 (List.range 9) s hstuck
          hguess s1 hfa hs1stuck hs1guess
        subst hfix1
        obtain ⟨hfix, hrest'⟩ := ih s1 hstuck hguess s' hrest hstuck' hguess'
        refine ⟨hfix, fun axis hax x hx => ?_⟩
        rcases List.mem_cons.1 hax with h0 | h1
        · subst h0
          exact hbits1 x (List.mem_range.2 hx)
        · exact hrest' axis h1 x hx
  obtain ⟨hfix, hall⟩ := main (List.range 3) s hstuck hguess s' h hstuck' hguess'
  exact ⟨hfix, fun axis hax x hx => hall axis (List.mem_range.2 hax) x hx⟩

theorem pass2_stuckfalse (al nd : List Nat) (s : DSt) (hs : s.stuck = false) :
    ∀ s', pass2 al nd s = Except.ok s' → s'.stuck = false := by
  intro s' h
  unfold pass2 at h
  refine foldlM_except_inv _ (fun s => s.stuck = false) (List.range 3) s hs ?_ s' h
  intro s2 a _ hP s3 hf
  exact pass2mid_stuckfalse al nd a (List.range 9) s2 hP s3 hf

theorem pass2_guesssome (al nd : List Nat) (s : DSt) (hs : s.guess ≠ none) :
    ∀ s', pass2 al nd s = Except.ok s' → s'.guess ≠ none := by
  intro s' h
  unfold pass2 at h
  refine foldlM_except_inv _ (fun s => s.guess ≠ none) (List.range 3) s hs ?_ s' h
  intro s2 a _ hP s3 hf
  exact pass2mid_guesssome al nd a (List.range 9) s2 hP s3 hf

theorem deduceLoop_none_sound (fuel : Nat) :
    ∀ (b : Board) (t : Tape), b.length = 81 →
      ∀ b' t', deduceLoop fuel b t = some (b', none, t') →
        BExt b b' ∧ (∀ j < 81, b'.getD j none ≠ none) ∧
          (∀ axis < 3, ∀ x < 9, listbits (axismissing b' x axis) = []) := by
  induction fuel with
  | zero => intro b t hb b' t' h; exact absurd h (by simp [deduceLoop])
  | succ fuel ih =>
    intro b t hb b' t' h
    rw [deduceLoop_succ] at h
    split at h
    · rename_i bt hp1
      simp at h
    · rename_i s1 hp1
      split at h
      · rename_i bt hp2
        simp at h
      · rename_i s2 hp2
        by_cases hstuck2 : s2.stuck = true
        · rw [if_pos hstuck2] at h
          split at h
          · rename_i hg
            rw [Option.some_inj] at h
            have heqb : s2.board = b' := congrArg (fun z => z.1) h
            have hs1stuck : s1.stuck = true := by
              by_contra hc
              exact absurd (pass2_stuckfalse _ _ s1 (by simpa using hc) s2 hp2)
                (by simp [hstuck2])
            have hs1guess : s1.guess = none := by
              by_contra hc
              exact absurd (pass2_guesssome _ _ s1 hc s2 hp2) (by simp [hg])
            obtain ⟨hs1fix, hfull0⟩ := pass1_stuck_none (figurebits b).1 (List.range 81)
              { board := b, stuck := true, guess := none, count := 0, tape := t }
              rfl rfl s1 hp1 hs1stuck hs1guess
            have hs1board : s1.board = b := by rw [hs1fix]
            rw [if_pos hs1stuck, figurebits_fst, figurebits_snd] at hp2
            obtain ⟨hs2fix, hbits⟩ := pass2_stuck_none (FBallowed b) (FBneeded b) s1
              hs1stuck hs1guess s2 hp2 hstuck2 hg
            have hb' : b' = b := by
              rw [← heqb, hs2fix, hs1board]
            subst hb'
            refine ⟨BExt_refl b', fun j hj hempty => ?_, fun axis hax x hx => ?_⟩
            · have := hfull0 j (List.mem_range.2 hj)
              rcases Nat.lt_or_ge (listbits ((figurebits b').1.getD j 0)).length 2 with hlen | hlen
              · exact this.2 ⟨hempty, by omega⟩
              · exact this.1 ⟨hempty, hlen⟩
            · have := hbits axis hax x hx
              rwa [FBneeded_getD b' axis hax x hx] at this
          · rename_i g hg
            simp at h
        · rw [if_neg hstuck2] at h
          have hs1 : DInv b s1 := pass1_DInv b hb _ t s1 hp1
          have hblen : s1.board.length = 81 := by rw [hs1.1.1, hb]
          have hs2 : DInv b s2 := by
            by_cases hstuck : s1.stuck = true
            · rw [if_pos hstuck, figurebits_fst, figurebits_snd] at hp2
              exact (pass2_DInv b b hb hb (BExt_refl b) (FBneeded b) s1 hs1
                (fun _ => rfl) s2 hp2).1
            · rw [if_neg hstuck, figurebits_fst, figurebits_snd] at hp2
              exact (pass2_DInv b s1.board hb hblen hs1.1 (FBneeded s1.board) s1 hs1
                (fun h' => absurd h' hstuck) s2 hp2).1
          have hrec := ih s2.board s2.tape (by rw [hs2.1.1, hb]) b' t' h
          exact ⟨BExt_trans hs2.1 hrec.1, hrec.2.1, hrec.2.2⟩

/-- Number of cells on line `x` of `axis` holding digit `n`. -/
def lineCount (b : Board) (axis x n : Nat) : Nat :=
  ((Finset.range 9).filter (fun y => b.getD (posfor x y axis) none = some n)).card

/-- A fully and validly solved board: 81 cells, every cell a digit 0..8,
and every row, column and box containing each digit exactly once. -/
def ValidSolved (b : Board) : Prop :=
  b.length = 81 ∧ (∀ j < 81, ∃ n < 9, b.getD j none = some n) ∧
    ∀ axis < 3, ∀ x < 9, ∀ n < 9, lineCount b axis x n = 1

theorem line_exactly_one (b : Board) (axis x : Nat) (haxis : axis < 3) (hx : x < 9)
    (hbits : listbits (axismissing b x axis) = []) :
    (∀ n < 9, lineCount b axis x n = 1) ∧
      (∀ y < 9, ∃ n < 9, b.getD (posfor x y axis) none = some n) := by
  have hex : ∀ n < 9, ∃ y < 9, b.getD (posfor x y axis) none = some n := by
    intro n hn
    have hnot : ¬((axismissing b x axis).testBit n = true) := by
      intro htb
      have hmem : n ∈ listbits (axismissing b x axis) := (mem_listbits _ n).2 ⟨hn, htb⟩
      rw [hbits] at hmem
      exact absurd hmem (List.not_mem_nil n)
    by_contra hc
    push_neg at hc
    exact hnot ((axismissing_testBit b x axis n hn).2 (fun y hy hv => hc y hy hv))
  set S : Nat → Finset Nat := fun n =>
    (Finset.range 9).filter (fun y => b.getD (posfor x y axis) none = some n) with hS
  have hdisj : ∀ n1 ∈ Finset.range 9, ∀ n2 ∈ Finset.range 9, n1 ≠ n2 →
      Disjoint (S n1) (S n2) := by
    intro n1 _ n2 _ hne
    rw [Finset.disjoint_left]
    intro y hy1 hy2
    rw [hS] at hy1 hy2
    simp only [Finset.mem_filter] at hy1 hy2
    rw [hy1.2] at hy2
    exact hne (Option.some_inj.1 hy2.2)
  have hsum : ∑ n in Finset.range 9, (S n).card = ((Finset.range 9).biUnion S).card :=
    (Finset.card_biUnion hdisj).symm
  have hsub : (Finset.range 9).biUnion S ⊆ Finset.range 9 := by
    intro y hy
    rw [Finset.mem_biUnion] at hy
    obtain ⟨n, _, hyn⟩ := hy
    exact (Finset.mem_filter.1 hyn).1
  have hle : ((Finset.range 9).biUnion S).card ≤ 9 := by
    calc _ ≤ (Finset.range 9).card := Finset.card_le_card hsub
      _ = 9 := Finset.card_range 9
  have hge1 : ∀ n ∈ Finset.range 9, 1 ≤ (S n).card := by
    intro n hn
    obtain ⟨y, hy, hv⟩ := hex n (Finset.mem_range.1 hn)
    exact Finset.card_pos.2 ⟨y, Finset.mem_filter.2 ⟨Finset.mem_range.2 hy, hv⟩⟩
  have hsum9 : ∑ n in Finset.range 9, (S n).card = 9 := by
    have h1 : 9 ≤ ∑ n in Finset.range 9, (S n).card := by
      calc (9 : Nat) = ∑ _n in Finset.range 9, 1 := by simp
        _ ≤ _ := Finset.sum_le_sum hge1
    omega
  have hone : ∀ n ∈ Finset.range 9, (S n).card = 1 := by
    intro n hn
    by_contra hnec
    have h2 : 2 ≤ (S n).card := by
      have := hge1 n hn
      omega
    have hrest : 8 ≤ ∑ m in (Finset.range 9).erase n, (S m).card := by
      calc (8 : Nat) = ∑ _m in (Finset.range 9).erase n, 1 := by
            rw [Finset.sum_const, Finset.card_erase_of_mem hn, Finset.card_range]
            simp
        _ ≤ _ := Finset.sum_le_sum (fun m hm => hge1 m (Finset.mem_of_mem_erase hm))
    have hadd := Finset.add_sum_erase (Finset.range 9) (fun n => (S n).card) hn
    simp only [] at hadd
    omega
  have hun : (Finset.range 9).biUnion S = Finset.range 9 :=
    Finset.eq_of_subset_of_card_le hsub (by rw [Finset.card_range, ← hsum, hsum9])
  constructor
  · intro n hn
    exact hone n (Finset.mem_range.2 hn)
  · intro y hy
    have hyB : y ∈ (Finset.range 9).biUnion S := by
      rw [hun]
      exact Finset.mem_range.2 hy
    rw [Finset.mem_biUnion] at hyB
    obtain ⟨n, hnmem, hyn⟩ := hyB
    exact ⟨n, Finset.mem_range.1 hnmem, (Finset.mem_filter.1 hyn).2⟩

theorem validSolved_of (b : Board) (hb : b.length = 81)
    (hfull : ∀ j < 81, b.getD j none ≠ none)
    (hlines : ∀ axis < 3, ∀ x < 9, listbits (axismissing b x axis) = []) :
    ValidSolved b := by
  refine ⟨hb, ?_, ?_⟩
  · intro j hj
    obtain ⟨hxlt, hylt, hpos⟩ := posfor_surj 0 (by omega) j hj
    have hline := line_exactly_one b 0 (axisforInt j 0) (by omega) hxlt
      (hlines 0 (by omega) _ hxlt)
    obtain ⟨n, hn, hv⟩ := hline.2 (axoff 0 j) hylt
    rw [hpos] at hv
    exact ⟨n, hn, hv⟩
  · intro axis hax x hx n hn
    exact (line_exactly_one b axis x hax hx (hlines axis hax x hx)).1 n hn

/-- The solved outcome of `deduce` (result `none`) yields a fully and
validly solved board extending the input. -/
theorem deduce_none_solved (b : Board) (t : Tape) (hb : b.length = 81)
    (h : (deduce b t).2.1 = none) :
    BExt b (deduce b t).1 ∧ ValidSolved (deduce b t).1 := by
  have heq := deduce_eq b t hb
  rw [show deduce b t = ((deduce b t).1, (deduce b t).2.1, (deduce b t).2.2) from rfl,
    h] at heq
  obtain ⟨hext, hfull, hlines⟩ :=
    deduceLoop_none_sound 82 b t hb (deduce b t).1 (deduce b t).2.2 heq
  exact ⟨hext, validSolved_of (deduce b t).1 (by rw [hext.1, hb]) hfull hlines⟩

/-- Invariant of a search stack: every frame has an 81-cell board and a
guess list that is either the contradiction marker `[]` or a well-formed
branch set for its own board, and the empty-cell counts strictly increase
from the top of the stack to the bottom (each pushed child board has
strictly fewer empty cells than its parent). -/
def StackInv (st : Stack) : Prop :=
  (∀ f ∈ st, f.2.2.length = 81 ∧ (f.1 = [] ∨ OptsOK f.2.2 f.1)) ∧
    st.Pairwise (fun f g => emptyCount f.2.2 < emptyCount g.2.2)

theorem StackInv_nil : StackInv [] := ⟨fun f hf => absurd hf (List.not_mem_nil f), List.Pairwise.nil⟩

theorem StackInv_tail {f : Frame} {rest : Stack} (h : StackInv (f :: rest)) :
    StackInv rest :=
  ⟨fun g hg => h.1 g (List.mem_cons_of_mem f hg), (List.pairwise_cons.1 h.2).2⟩

theorem solvenextLoop_succ (fuel : Nat) (stack : Stack) (t : Tape) :
    solvenextLoop (fuel + 1) stack t =
      (match stack with
       | [] => some ([], none, t)
       | (guesses, c, board) :: rest =>
         if c ≥ guesses.length then solvenextLoop fuel rest t
         else
           match (deduce (board.set (guesses.getD c (0, 0)).1
               (some (guesses.getD c (0, 0)).2)) t).2.1 with
           | none =>
             some ((guesses, c + 1, board) :: rest,
               some (deduce (board.set (guesses.getD c (0, 0)).1
                 (some (guesses.getD c (0, 0)).2)) t).1,
               (deduce (board.set (guesses.getD c (0, 0)).1
                 (some (guesses.getD c (0, 0)).2)) t).2.2)
           | some g2 =>
             solvenextLoop fuel
               ((g2, 0, (deduce (board.set (guesses.getD c (0, 0)).1
                   (some (guesses.getD c (0, 0)).2)) t).1) ::
                 (guesses, c + 1, board) :: rest)
               (deduce (board.set (guesses.getD c (0, 0)).1
                 (some (guesses.getD c (0, 0)).2)) t).2.2) := rfl

theorem getD_mem {l : Opts} {c : Nat} (hc : c < l.length) : l.getD c (0, 0) ∈ l := by
  rw [List.getD_eq_getElem l (0, 0) hc]
  exact List.getElem_mem hc

theorem solvenextLoop_sound (fuel : Nat) :
    ∀ st t, StackInv st →
      ∀ res, solvenextLoop fuel st t = some res →
        StackInv res.1 ∧
          ∀ bsol, res.2.1 = some bsol →
            ValidSolved bsol ∧ ∃ f ∈ st, BExt f.2.2 bsol := by
  induction fuel with
  | zero => intro st t _ res h; exact absurd h (by simp [solvenextLoop])
  | succ fuel ih =>
    intro st t hinv res h
    rw [solvenextLoop_succ] at h
    split at h
    · rw [Option.some_inj] at h
      subst h
      exact ⟨StackInv_nil, fun bsol hb => by simp at hb⟩
    · rename_i g c bd rest
      by_cases hc : c ≥ g.length
      · rw [if_pos hc] at h
        obtain ⟨hinv', hans⟩ := ih rest t (StackInv_tail hinv) res h
        exact ⟨hinv', fun bsol hb =>
          ⟨(hans bsol hb).1, let ⟨f, hf, hbe⟩ := (hans bsol hb).2
            ⟨f, List.mem_cons_of_mem _ hf, hbe⟩⟩⟩
      · rw [if_neg hc] at h
        have hclt : c < g.length := Nat.lt_of_not_le hc
        have hhead := hinv.1 (g, c, bd) (List.mem_cons_self _ _)
        have hglen : g ≠ [] := by
          intro hge
          rw [hge] at hclt
          exact absurd hclt (by simp)
        have hgok : OptsOK bd g := hhead.2.resolve_left hglen
        have hpn := hgok.2.2 (g.getD c (0, 0)) (getD_mem hclt)
        have hwslen : (bd.set (g.getD c (0, 0)).1 (some (g.getD c (0, 0)).2)).length = 81 := by
          rw [List.length_set, hhead.1]
        have hwext : BExt bd (bd.set (g.getD c (0, 0)).1 (some (g.getD c (0, 0)).2)) :=
          BExt_set (BExt_refl bd) _ _ hpn.2.2
        have hde := deduce_facts (bd.set (g.getD c (0, 0)).1 (some (g.getD c (0, 0)).2)) t hwslen
        have hdlt : emptyCount (deduce (bd.set (g.getD c (0, 0)).1
            (some (g.getD c (0, 0)).2)) t).1 < emptyCount bd := by
          calc emptyCount (deduce (bd.set (g.getD c (0, 0)).1 (some (g.getD c (0, 0)).2)) t).1
              ≤ emptyCount (bd.set (g.getD c (0, 0)).1 (some (g.getD c (0, 0)).2)) :=
                emptyCount_mono hde.1
            _ < emptyCount bd :=
                emptyCount_set_lt bd _ _ hpn.1 (by rw [hhead.1]; exact hpn.1) hpn.2.2
        split at h
        · rename_i hdnone
          rw [Option.some_inj] at h
          subst h
          refine ⟨⟨?_, ?_⟩, ?_⟩
          · intro f hf
            rcases List.mem_cons.1 hf with h0 | h1
            · subst h0
              exact hhead
            · exact hinv.1 f (List.mem_cons_of_mem _ h1)
          · rw [List.pairwise_cons]
            exact ⟨fun f hf => (List.pairwise_cons.1 hinv.2).1 f hf,
              (List.pairwise_cons.1 hinv.2).2⟩
          · intro bsol hb
            have hbsol : bsol = (deduce (bd.set (g.getD c (0, 0)).1
                (some (g.getD c (0, 0)).2)) t).1 := (Option.some_inj.1 hb).symm
            subst hbsol
            have hsolved := deduce_none_solved _ t hwslen hdnone
            exact ⟨hsolved.2, (g, c, bd), List.mem_cons_self _ _,
              BExt_trans hwext hsolved.1⟩
        · rename_i g2 hdsome
          have hnewinv : StackInv ((g2, 0, (deduce (bd.set (g.getD c (0, 0)).1
              (some (g.getD c (0, 0)).2)) t).1) :: (g, c + 1, bd) :: rest) := by
            refine ⟨?_, ?_⟩
            · intro f hf
              rcases List.mem_cons.1 hf with h0 | h1
              · subst h0
                exact ⟨by rw [hde.1.1, hwslen], hde.2 g2 hdsome⟩
              · rcases List.mem_cons.1 h1 with h2 | h3
                · subst h2
                  exact hhead
                · exact hinv.1 f (List.mem_cons_of_mem _ h3)
            · rw [List.pairwise_cons]
              constructor
              · intro f hf
                rcases List.mem_cons.1 hf with h0 | h1
                · subst h0
                  exact hdlt
                · exact lt_trans hdlt ((List.pairwise_cons.1 hinv.2).1 f h1)
              · rw [List.pairwise_cons]
                exact ⟨fun f hf => (List.pairwise_cons.1 hinv.2).1 f hf,
                  (List.pairwise_cons.1 hinv.2).2⟩
          obtain ⟨hinv', hans⟩ := ih _ _ hnewinv res h
          refine ⟨hinv', fun bsol hb => ⟨(hans bsol hb).1, ?_⟩⟩
          obtain ⟨f, hf, hbe⟩ := (hans bsol hb).2
          rcases List.mem_cons.1 hf with h0 | h1
          · subst h0
            exact ⟨(g, c, bd), List.mem_cons_self _ _,
              BExt_trans (BExt_trans hwext hde.1) hbe⟩
          · rcases List.mem_cons.1 h1 with h2 | h3
            · subst h2
              exact ⟨(g, c, bd), List.mem_cons_self _ _, hbe⟩
            · exact ⟨f, List.mem_cons_of_mem _ h3, hbe⟩

theorem stackMeasure_cons (f : Frame) (rest : Stack) :
    stackMeasure (f :: rest) =
      (f.1.length - f.2.1) * 10 ^ emptyCount f.2.2 + stackMeasure rest + 1 := by
  unfold stackMeasure
  simp only [List.length_cons, List.map_cons, List.sum_cons]
  ring

theorem emptyCount_pos (b : Board) (j : Nat) (hj : j < 81)
    (hempty : b.getD j none = none) : 1 ≤ emptyCount b := by
  unfold emptyCount
  refine Finset.card_pos.2 ⟨j, Finset.mem_filter.2 ⟨Finset.mem_range.2 hj, hempty⟩⟩

theorem solvenextLoop_isSome (fuel : Nat) :
    ∀ st t, StackInv st → stackMeasure st < fuel →
      (solvenextLoop fuel st t).isSome := by
  induction fuel with
  | zero => intro st t _ hfuel; exact absurd hfuel (by omega)
  | succ fuel ih =>
    intro st t hinv hfuel
    rw [solvenextLoop_succ]
    split
    · simp
    · rename_i g c bd rest
      rw [stackMeasure_cons] at hfuel
      by_cases hc : c ≥ g.length
      · rw [if_pos hc]
        refine ih rest t (StackInv_tail hinv) ?_
        have hz : g.length - c = 0 := by omega
        rw [hz] at hfuel
        omega
      · rw [if_neg hc]
        have hclt : c < g.length := Nat.lt_of_not_le hc
        have hhead := hinv.1 (g, c, bd) (List.mem_cons_self _ _)
        have hglen : g ≠ [] := by
          intro hge
          rw [hge] at hclt
          exact absurd hclt (by simp)
        have hgok : OptsOK bd g := hhead.2.resolve_left hglen
        have hpn := hgok.2.2 (g.getD c (0, 0)) (getD_mem hclt)
        have hwslen : (bd.set (g.getD c (0, 0)).1 (some (g.getD c (0, 0)).2)).length = 81 := by
          rw [List.length_set, hhead.1]
        have hde := deduce_facts (bd.set (g.getD c (0, 0)).1 (some (g.getD c (0, 0)).2)) t hwslen
        have hdlt : emptyCount (deduce (bd.set (g.getD c (0, 0)).1
            (some (g.getD c (0, 0)).2)) t).1 < emptyCount bd := by
          calc emptyCount (deduce (bd.set (g.getD c (0, 0)).1 (some (g.getD c (0, 0)).2)) t).1
              ≤ emptyCount (bd.set (g.getD c (0, 0)).1 (some (g.getD c (0, 0)).2)) :=
                emptyCount_mono hde.1
            _ < emptyCount bd :=
                emptyCount_set_lt bd _ _ hpn.1 (by rw [hhead.1]; exact hpn.1) hpn.2.2
        have hepos : 1 ≤ emptyCount bd := emptyCount_pos bd _ hpn.1 hpn.2.2
        split
        · simp
        · rename_i g2 hdsome
          have hnewinv : StackInv ((g2, 0, (deduce (bd.set (g.getD c (0, 0)).1
              (some (g.getD c (0, 0)).2)) t).1) :: (g, c + 1, bd) :: rest) := by
            refine ⟨?_, ?_⟩
            · intro f hf
              rcases List.mem_cons.1 hf with h0 | h1
              · subst h0
                exact ⟨by rw [hde.1.1, hwslen], hde.2 g2 hdsome⟩
              · rcases List.mem_cons.1 h1 with h2 | h3
                · subst h2
                  exact hhead
                · exact hinv.1 f (List.mem_cons_of_mem _ h3)
            · rw [List.pairwise_cons]
              constructor
              · intro f hf
                rcases List.mem_cons.1 hf with h0 | h1
                · subst h0
                  exact hdlt
                · exact lt_trans hdlt ((List.pairwise_cons.1 hinv.2).1 f h1)
              · rw [List.pairwise_cons]
                exact ⟨fun f hf => (List.pairwise_cons.1 hinv.2).1 f hf,
                  (List.pairwise_cons.1 hinv.2).2⟩
          refine ih _ _ hnewinv ?_
          rw [stackMeasure_cons, stackMeasure_cons]
          set e := emptyCount bd with he
          set e2 := emptyCount (deduce (bd.set (g.getD c (0, 0)).1
            (some (g.getD c (0, 0)).2)) t).1 with he2
          have hpow : 10 ^ e2 ≤ 10 ^ (e - 1) :=
            Nat.pow_le_pow_right (by omega) (by omega)
          have hpe : 10 ^ e = 10 * 10 ^ (e - 1) := by
            rw [← Nat.pow_succ']
            congr 1
            omega
          have hr : g.length - c = (g.length - (c + 1)) + 1 := by omega
          have hA : 1 ≤ 10 ^ (e - 1) := Nat.one_le_two_pow.trans
            (Nat.pow_le_pow_left (by omega) _)
          rw [hr, hpe, Nat.succ_mul] at hfuel
          simp only [Nat.sub_zero]
          rw [hpe]
          rcases hde.2 g2 hdsome with hge | hok
          · rw [hge]
            simp only [List.length_nil, Nat.zero_mul]
            linarith
          · have hg2len : g2.length ≤ 9 := hok.2.1
            have hmul : g2.length * 10 ^ e2 ≤ 9 * 10 ^ (e - 1) :=
              Nat.mul_le_mul hg2len hpow
            obtain ⟨pn2, hpn2⟩ : ∃ pn2, pn2 ∈ g2 := by
              cases g2 with
              | nil => exact absurd rfl hok.1
              | cons a tl => exact ⟨a, List.mem_cons_self a tl⟩
            have hpf := hok.2.2 pn2 hpn2
            have he2pos : 1 ≤ e2 := emptyCount_pos _ _ hpf.1 hpf.2.2
            have hA10 : 10 ≤ 10 ^ (e - 1) := by
              calc (10 : Nat) = 10 ^ 1 := (pow_one 10).symm
                _ ≤ 10 ^ (e - 1) := Nat.pow_le_pow_right (by omega) (by omega)
            linarith

theorem solvenext_eq (st : Stack) (t : Tape) (hinv : StackInv st) :
    solvenextLoop (stackMeasure st + 1) st t = some (solvenext st t) := by
  have h := solvenextLoop_isSome (stackMeasure st + 1) st t hinv (by omega)
  obtain ⟨r, hr⟩ := Option.isSome_iff_exists.1 h
  unfold solvenext
  rw [hr]
  rfl

theorem solvenext_sound (st : Stack) (t : Tape) (hinv : StackInv st) :
    StackInv (solvenext st t).1 ∧
      ∀ bsol, (solvenext st t).2.1 = some bsol →
        ValidSolved bsol ∧ ∃ f ∈ st, BExt f.2.2 bsol :=
  solvenextLoop_sound _ st t hinv _ (solvenext_eq st t hinv)

theorem solveboard_cases (original : Board) (t : Tape) :
    ((deduce original t).2.1 = none ∧
      solveboard original t = ([], some (deduce original t).1, (deduce original t).2.2)) ∨
    (∃ g, (deduce original t).2.1 = some g ∧
      solveboard original t =
        solvenext [(g, 0, (deduce original t).1)] (deduce original t).2.2) := by
  have heq : solveboard original t =
      (match (deduce original t).2.1 with
       | none => ([], some (deduce original t).1, (deduce original t).2.2)
       | some g => solvenext [(g, 0, (deduce original t).1)] (deduce original t).2.2) := rfl
  rw [heq]
  cases hd : (deduce original t).2.1 with
  | none => exact Or.inl ⟨rfl, rfl⟩
  | some g => exact Or.inr ⟨g, rfl, rfl⟩

theorem StackInv_start (original : Board) (t : Tape) (hb : original.length = 81)
    (g : Opts) (hg : (deduce original t).2.1 = some g) :
    StackInv [(g, 0, (deduce original t).1)] := by
  have hde := deduce_facts original t hb
  refine ⟨?_, ?_⟩
  · intro f hf
    rcases List.mem_cons.1 hf with h0 | h1
    · subst h0
      exact ⟨by rw [hde.1.1, hb], hde.2 g hg⟩
    · exact absurd h1 (List.not_mem_nil f)
  · exact List.pairwise_singleton _ _

theorem solveboard_sound (original : Board) (t : Tape) (hb : original.length = 81) :
    StackInv (solveboard original t).1 ∧
      ∀ bsol, (solveboard original t).2.1 = some bsol →
        ValidSolved bsol ∧ BExt original bsol := by
  rcases solveboard_cases original t with ⟨hd, heq⟩ | ⟨g, hd, heq⟩
  · rw [heq]
    refine ⟨StackInv_nil, fun bsol hbs => ?_⟩
    have hbsol : bsol = (deduce original t).1 := (Option.some_inj.1 hbs).symm
    subst hbsol
    have hsolved := deduce_none_solved original t hb hd
    exact ⟨hsolved.2, hsolved.1⟩
  · rw [heq]
    have hstart := StackInv_start original t hb g hd
    obtain ⟨hinv', hans⟩ := solvenext_sound _ _ hstart
    refine ⟨hinv', fun bsol hbs => ?_⟩
    obtain ⟨hvalid, f, hf, hbe⟩ := hans bsol hbs
    rcases List.mem_cons.1 hf with h0 | h1
    · subst h0
      exact ⟨hvalid, BExt_trans (deduce_facts original t hb).1 hbe⟩
    · exact absurd h1 (List.not_mem_nil f)

-- ------------------------------------------------------------------
-- Claim theorems: solver core.
-- ------------------------------------------------------------------

/-- A board with a duplicated digit inside one row, column or box. -/
def HasDuplicate (b : Board) : Prop :=
  ∃ axis < 3, ∃ x < 9, ∃ y1 < 9, ∃ y2 < 9, y1 ≠ y2 ∧ ∃ n,
    b.getD (posfor x y1 axis) none = some n ∧ b.getD (posfor x y2 axis) none = some n

/-- C1: every board returned as a solution by `solveboard` (on an 81-cell
input) or by `solvenext` (on a well-formed search stack), under every
random tape, is fully solved: 81 cells all holding digits 0..8 with every
row, column and box containing each digit exactly once (`ValidSolved`). -/
theorem C1_solutions_valid :
    (∀ (original : Board) (t : Tape), original.length = 81 →
      ∀ b, (solveboard original t).2.1 = some b → ValidSolved b) ∧
    (∀ (st : Stack) (t : Tape), StackInv st →
      ∀ b, (solvenext st t).2.1 = some b → ValidSolved b) :=
  ⟨fun original t hb b hbs => ((solveboard_sound original t hb).2 b hbs).1,
   fun st t hinv b hbs => ((solvenext_sound st t hinv).2 b hbs).1⟩

/-- C5: `deduce` returns the solved outcome (`none`) only when every one
of the 81 cells of its final board is filled; whenever it stops with an
empty cell remaining, the result is the contradiction `[]` or a
non-empty branch set. -/
theorem C5_deduce_solved_only_full :
    ∀ (b : Board) (t : Tape), b.length = 81 →
      ((deduce b t).2.1 = none → ∀ j < 81, (deduce b t).1.getD j none ≠ none) ∧
      ((∃ j < 81, (deduce b t).1.getD j none = none) →
        (deduce b t).2.1 = some [] ∨
          ∃ gl, (deduce b t).2.1 = some gl ∧ gl ≠ []) := by
  intro b t hb
  constructor
  · intro hnone j hj hcell
    obtain ⟨n, _hn, hv⟩ := (deduce_none_solved b t hb hnone).2.2.1 j hj
    rw [hcell] at hv
    exact Option.noConfusion hv
  · intro hempty
    cases hres : (deduce b t).2.1 with
    | none =>
      obtain ⟨j, hj, hc⟩ := hempty
      obtain ⟨n, _hn, hv⟩ := (deduce_none_solved b t hb hres).2.2.1 j hj
      rw [hc] at hv
      exact absurd hv (by simp)
    | some gl =>
      rcases eq_or_ne gl [] with rfl | hne
      · exact Or.inl rfl
      · exact Or.inr ⟨gl, rfl, hne⟩

/-- C6: a board with a duplicated digit in some line never yields a
solution from `solveboard`, whatever the random tape. -/
theorem C6_duplicate_unsolvable :
    ∀ (b : Board) (t : Tape), b.length = 81 → HasDuplicate b →
      (solveboard b t).2.1 = none := by
  intro b t hb hdup
  cases hans : (solveboard b t).2.1 with
  | none => rfl
  | some bsol =>
    exfalso
    obtain ⟨hvalid, hext⟩ := (solveboard_sound b t hb).2 bsol hans
    obtain ⟨axis, hax, x, hx, y1, hy1, y2, hy2, hne, n, hv1, hv2⟩ := hdup
    have hp1 : posfor x y1 axis < 81 := posfor_lt axis hax x hx y1 hy1
    have hb1 : bsol.getD (posfor x y1 axis) none = some n := by
      rw [hext.2 _ (by rw [hv1]; simp)]
      exact hv1
    have hb2 : bsol.getD (posfor x y2 axis) none = some n := by
      rw [hext.2 _ (by rw [hv2]; simp)]
      exact hv2
    have hn9 : n < 9 := by
      obtain ⟨m, hm, hvm⟩ := hvalid.2.1 _ hp1
      rw [hb1] at hvm
      rw [Option.some_inj.1 hvm]
      exact hm
    have hcount := hvalid.2.2 axis hax x hx n hn9
    have h2 : 1 < lineCount bsol axis x n := by
      unfold lineCount
      refine Finset.one_lt_card.2
        ⟨y1, Finset.mem_filter.2 ⟨Finset.mem_range.2 hy1, hb1⟩,
         y2, Finset.mem_filter.2 ⟨Finset.mem_range.2 hy2, hb2⟩, hne⟩
    omega

/-- C10: termination of the core loops.  `deduce`'s outer loop never
exhausts 82 units of fuel on an 81-cell board (each continuing iteration
fills at least one empty cell), and the `solvenext` loop never exhausts
`stackMeasure + 1` units of fuel on a well-formed stack (each step pops a
frame, advances a cursor, or pushes a child whose board has strictly
fewer empty cells). -/
theorem C10_termination :
    (∀ (b : Board) (t : Tape), b.length = 81 → (deduceLoop 82 b t).isSome = true) ∧
    (∀ (st : Stack) (t : Tape), StackInv st →
      (solvenextLoop (stackMeasure st + 1) st t).isSome = true) :=
  ⟨fun b t hb => deduceLoop_isSome 82 b t hb
      (lt_of_le_of_lt (emptyCount_le_81 b) (by norm_num)),
   fun st t hinv => solvenextLoop_isSome (stackMeasure st + 1) st t hinv (by omega)⟩

/-- Pairwise distinctness of the board snapshots held by a stack. -/
def BoardsDistinct (st : Stack) : Prop :=
  st.Pairwise (fun f g => f.2.2 ≠ g.2.2)

theorem StackInv_advance {g : Opts} {c : Nat} {bd : Board} {rest : Stack}
    (hinv : StackInv ((g, c, bd) :: rest)) (hclt : c < g.length) (t : Tape)
    (g2 : Opts)
    (hdsome : (deduce (bd.set (g.getD c (0, 0)).1 (some (g.getD c (0, 0)).2)) t).2.1
      = some g2) :
    StackInv ((g2, 0, (deduce (bd.set (g.getD c (0, 0)).1
        (some (g.getD c (0, 0)).2)) t).1) :: (g, c + 1, bd) :: rest) := by
  have hhead := hinv.1 (g, c, bd) (List.mem_cons_self _ _)
  have hglen : g ≠ [] := by
    intro hge
    rw [hge] at hclt
    exact absurd hclt (by simp)
  have hgok : OptsOK bd g := hhead.2.resolve_left hglen
  have hpn := hgok.2.2 (g.getD c (0, 0)) (getD_mem hclt)
  have hwslen : (bd.set (g.getD c (0, 0)).1 (some (g.getD c (0, 0)).2)).length = 81 := by
    rw [List.length_set, hhead.1]
  have hde := deduce_facts (bd.set (g.getD c (0, 0)).1 (some (g.getD c (0, 0)).2)) t hwslen
  have hdlt : emptyCount (deduce (bd.set (g.getD c (0, 0)).1
      (some (g.getD c (0, 0)).2)) t).1 < emptyCount bd := by
    calc emptyCount (deduce (bd.set (g.getD c (0, 0)).1 (some (g.getD c (0, 0)).2)) t).1
        ≤ emptyCount (bd.set (g.getD c (0, 0)).1 (some (g.getD c (0, 0)).2)) :=
          emptyCount_mono hde.1
      _ < emptyCount bd :=
          emptyCount_set_lt bd _ _ hpn.1 (by rw [hhead.1]; exact hpn.1) hpn.2.2
  refine ⟨?_, ?_⟩
  · intro f hf
    rcases List.mem_cons.1 hf with h0 | h1
    · subst h0
      exact ⟨by rw [hde.1.1, hwslen], hde.2 g2 hdsome⟩
    · rcases List.mem_cons.1 h1 with h2 | h3
      · subst h2
        exact hhead
      · exact hinv.1 f (List.mem_cons_of_mem _ h3)
  · rw [List.pairwise_cons]
    constructor
    · intro f hf
      rcases List.mem_cons.1 hf with h0 | h1
      · subst h0
        exact hdlt
      · exact lt_trans hdlt ((List.pairwise_cons.1 hinv.2).1 f h1)
    · rw [List.pairwise_cons]
      exact ⟨fun f hf => (List.pairwise_cons.1 hinv.2).1 f hf,
        (List.pairwise_cons.1 hinv.2).2⟩

/-- The assertion that the boards of the stack are pairwise distinct at
the entry of EVERY iteration the `solvenext` loop performs (the
recursion mirrors `solvenextLoop` step for step). -/
def solvenextAllDistinct : Nat → Stack → Tape → Prop
  | 0, st, _ => BoardsDistinct st
  | fuel + 1, st, t =>
    BoardsDistinct st ∧
      (match st with
       | [] => True
       | (guesses, c, board) :: rest =>
         if c ≥ guesses.length then solvenextAllDistinct fuel rest t
         else
           match (deduce (board.set (guesses.getD c (0, 0)).1
               (some (guesses.getD c (0, 0)).2)) t).2.1 with
           | none => True
           | some g2 =>
             solvenextAllDistinct fuel
               ((g2, 0, (deduce (board.set (guesses.getD c (0, 0)).1
                   (some (guesses.getD c (0, 0)).2)) t).1) ::
                 (guesses, c + 1, board) :: rest)
               (deduce (board.set (guesses.getD c (0, 0)).1
                 (some (guesses.getD c (0, 0)).2)) t).2.2)

theorem BoardsDistinct_of_inv (st : Stack) (hinv : StackInv st) : BoardsDistinct st :=
  hinv.2.imp (fun hlt heq => absurd (heq ▸ hlt) (lt_irrefl _))

theorem solvenextAllDistinct_of_inv (fuel : Nat) :
    ∀ st t, StackInv st → solvenextAllDistinct fuel st t := by
  induction fuel with
  | zero => intro st t hinv; exact BoardsDistinct_of_inv st hinv
  | succ fuel ih =>
    intro st t hinv
    refine ⟨BoardsDistinct_of_inv st hinv, ?_⟩
    split
    · trivial
    · rename_i g c bd rest
      by_cases hc : c ≥ g.length
      · rw [if_pos hc]
        exact ih rest t (StackInv_tail hinv)
      · rw [if_neg hc]
        split
        · trivial
        · rename_i g2 hdsome
          exact ih _ _ (StackInv_advance hinv (Nat.lt_of_not_le hc) t g2 hdsome)

/-- C8: the search stack never holds two frames with identical board
snapshots.  A well-formed stack always has pairwise distinct boards, the
distinctness holds at the entry of every iteration of the `solvenext`
loop, and the single-frame stack `solveboard` creates is well-formed. -/
theorem C8_stack_boards_distinct :
    (∀ st : Stack, StackInv st → BoardsDistinct st) ∧
    (∀ (fuel : Nat) (st : Stack) (t : Tape), StackInv st →
      solvenextAllDistinct fuel st t) ∧
    (∀ (original : Board) (t : Tape), original.length = 81 →
      ∀ g, (deduce original t).2.1 = some g →
        StackInv [(g, 0, (deduce original t).1)]) :=
  ⟨BoardsDistinct_of_inv, solvenextAllDistinct_of_inv,
   fun original t hb g hg => StackInv_start original t hb g hg⟩

theorem checkpuzzle_eq (puzzle : Board) (target : Option Board) (t : Tape) :
    checkpuzzle puzzle target t =
      (match (solveboard puzzle t).2.1 with
       | none => (-1, (solveboard puzzle t).2.2)
       | some answer =>
         if target.elim false (fun bd => !(boardmatches bd answer)) then
           (-1, (solveboard puzzle t).2.2)
         else
           match (solvenext (solveboard puzzle t).1 (solveboard puzzle t).2.2).2.1 with
           | some _ =>
             (-1, (solvenext (solveboard puzzle t).1 (solveboard puzzle t).2.2).2.2)
           | none =>
             (((solveboard puzzle t).1.length : Int),
               (solvenext (solveboard puzzle t).1 (solveboard puzzle t).2.2).2.2)) := rfl

/-- C4: `checkpuzzle` returns -1 exactly when the solve finds no answer,
or the answer differs from the given target board, or a subsequent
`solvenext` on the returned stack yields a second solution; otherwise it
returns the number of frames remaining on the stack at the moment the
first solution was found, a non-negative integer. -/
theorem C4_checkpuzzle_spec :
    ∀ (puzzle : Board) (target : Option Board) (t : Tape),
      ((checkpuzzle puzzle target t).1 = -1 ↔
        ((solveboard puzzle t).2.1 = none ∨
         (∃ ans, (solveboard puzzle t).2.1 = some ans ∧
            target.elim false (fun bd => !(boardmatches bd ans)) = true) ∨
         (∃ b2, (solvenext (solveboard puzzle t).1 (solveboard puzzle t).2.2).2.1
            = some b2))) ∧
      ((checkpuzzle puzzle target t).1 ≠ -1 →
        (checkpuzzle puzzle target t).1 = ((solveboard puzzle t).1.length : Int) ∧
        0 ≤ (checkpuzzle puzzle target t).1) := by
  intro puzzle target t
  rw [checkpuzzle_eq]
  cases hans : (solveboard puzzle t).2.1 with
  | none =>
    refine ⟨⟨fun _ => Or.inl rfl, fun _ => rfl⟩, fun hne => absurd rfl hne⟩
  | some answer =>
    dsimp only
    by_cases hmatch : target.elim false (fun bd => !(boardmatches bd answer)) = true
    · rw [if_pos hmatch]
      exact ⟨⟨fun _ => Or.inr (Or.inl ⟨answer, rfl, hmatch⟩), fun _ => rfl⟩,
        fun hne => absurd rfl hne⟩
    · rw [if_neg hmatch]
      cases hsec : (solvenext (solveboard puzzle t).1 (solveboard puzzle t).2.2).2.1 with
      | some b2 =>
        exact ⟨⟨fun _ => Or.inr (Or.inr ⟨b2, rfl⟩), fun _ => rfl⟩,
          fun hne => absurd rfl hne⟩
      | none =>
        dsimp only
        refine ⟨⟨fun hv => absurd hv (by omega), ?_⟩, fun _ => ⟨rfl, by omega⟩⟩
        rintro (h1 | ⟨ans, h2, h3⟩ | ⟨b2, h4⟩)
        · exact absurd h1 (by simp)
        · rw [← Option.some_inj.1 h2] at h3
          exact absurd h3 (by simp [hmatch])
        · exact absurd h4 (by simp [hsec])

-- ------------------------------------------------------------------
-- C9: reference-semantics (store) model of board aliasing.
-- ------------------------------------------------------------------

/-- A store of live board objects; a Python variable holding a board is
an index (reference) into it. -/
abbrev Store := List Board

/-- `deduce(board)` at the reference level: it mutates exactly the board
object it is given (all its writes are `board[pos] = ...`), and returns
the result value. -/
def deduceRef (s : Store) (r : Nat) (t : Tape) : Store × Option Opts × Tape :=
  (s.set r (deduce (s.getD r []) t).1,
   (deduce (s.getD r []) t).2.1, (deduce (s.getD r []) t).2.2)

/-- `solveboard(original)` at the reference level: `board = list(original)`
allocates a fresh copy at the end of the store, `deduce` mutates only
that fresh object, and the search itself works on owned copies (plain
values). -/
def solveboardRef (s : Store) (r : Nat) (t : Tape) :
    Store × (Stack × Option Board × Tape) :=
  let s1 := s ++ [s.getD r []]
  let d := deduceRef s1 s.length t
  (d.1,
    match d.2.1 with
    | none => (([] : Stack), some (d.1.getD s.length []), d.2.2)
    | some g => solvenext [(g, 0, d.1.getD s.length [])] d.2.2)

/-- `solution(board)` at the reference level. -/
def solutionRef (s : Store) (r : Nat) (t : Tape) : Store × Option Board × Tape :=
  ((solveboardRef s r t).1, (solveboardRef s r t).2.2.1, (solveboardRef s r t).2.2.2)

/-- `checkpuzzle(puzzle, board)` at the reference level. -/
def checkpuzzleRef (s : Store) (r : Nat) (target : Option Board) (t : Tape) :
    Store × Int × Tape :=
  ((solveboardRef s r t).1,
    match (solveboardRef s r t).2.2.1 with
    | none => (-1, (solveboardRef s r t).2.2.2)
    | some answer =>
      if target.elim false (fun bd => !(boardmatches bd answer)) then
        (-1, (solveboardRef s r t).2.2.2)
      else
        match (solvenext (solveboardRef s r t).2.1 (solveboardRef s r t).2.2.2).2.1 with
        | some _ =>
          (-1, (solvenext (solveboardRef s r t).2.1 (solveboardRef s r t).2.2.2).2.2)
        | none =>
          (((solveboardRef s r t).2.1.length : Int),
            (solvenext (solveboardRef s r t).2.1 (solveboardRef s r t).2.2.2).2.2))

/-- The sampling loop of `ratepuzzle` at the reference level. -/
def ratepuzzleRefGo : Nat → Store → Nat → Tape → Nat → Store × Option Nat × Tape
  | 0, s, _, t, total => (s, some total, t)
  | k + 1, s, r, t, total =>
    match (solveboardRef s r t).2.2.1 with
    | none => ((solveboardRef s r t).1, none, (solveboardRef s r t).2.2.2)
    | some _ =>
      ratepuzzleRefGo k (solveboardRef s r t).1 r (solveboardRef s r t).2.2.2
        (total + (solveboardRef s r t).2.1.length)

/-- `ratepuzzle(puzzle, samples)` at the reference level. -/
def ratepuzzleRef (s : Store) (r : Nat) (samples : Nat) (t : Tape) : Store × ℚ × Tape :=
  ((ratepuzzleRefGo samples s r t 0).1,
    match (ratepuzzleRefGo samples s r t 0).2.1 with
    | none => (-1, (ratepuzzleRefGo samples s r t 0).2.2)
    | some total => ((total : ℚ) / samples, (ratepuzzleRefGo samples s r t 0).2.2))

theorem store_copy_getD (s : Store) (r : Nat) (b v : Board) (i : Nat) (hi : i < s.length) :
    ((s ++ [b]).set s.length v).getD i [] = s.getD i [] := by
  rw [List.getD_eq_getD_get?, List.get?_set_ne _ _ (by omega),
    List.get?_append hi, List.getD_eq_getD_get?]

theorem store_copy_getD_self (s : Store) (b v : Board) :
    ((s ++ [b]).set s.length v).getD s.length [] = v := by
  rw [List.getD_eq_getD_get?, List.get?_set_eq_of_lt _ (by simp)]
  rfl

theorem solveboardRef_frame (s : Store) (r : Nat) (t : Tape) :
    (∀ i < s.length, (solveboardRef s r t).1.getD i [] = s.getD i []) ∧
      (solveboardRef s r t).2 = solveboard (s.getD r []) t := by
  have hcopy : (s ++ [s.getD r []]).getD s.length [] = s.getD r [] := by
    rw [List.getD_append_right _ _ _ _ (le_refl _)]
    simp
  constructor
  · intro i hi
    show ((s ++ [s.getD r []]).set s.length
      (deduce ((s ++ [s.getD r []]).getD s.length []) t).1).getD i [] = s.getD i []
    rw [store_copy_getD s r _ _ i hi]
  · show (match (deduce ((s ++ [s.getD r []]).getD s.length []) t).2.1 with
      | none => (([] : Stack), some (((s ++ [s.getD r []]).set s.length
          (deduce ((s ++ [s.getD r []]).getD s.length []) t).1).getD s.length []),
          (deduce ((s ++ [s.getD r []]).getD s.length []) t).2.2)
      | some g => solvenext [(g, 0, ((s ++ [s.getD r []]).set s.length
          (deduce ((s ++ [s.getD r []]).getD s.length []) t).1).getD s.length [])]
          (deduce ((s ++ [s.getD r []]).getD s.length []) t).2.2)
      = solveboard (s.getD r []) t
    rw [hcopy, store_copy_getD_self s _ _]
    rw [show solveboard (s.getD r []) t =
      (match (deduce (s.getD r []) t).2.1 with
       | none => ([], some (deduce (s.getD r []) t).1, (deduce (s.getD r []) t).2.2)
       | some g => solvenext [(g, 0, (deduce (s.getD r []) t).1)]
           (deduce (s.getD r []) t).2.2) from rfl]

theorem deduceRef_frame (s : Store) (r : Nat) (t : Tape) (hr : r < s.length) :
    (deduceRef s r t).1.getD r [] = (deduce (s.getD r []) t).1 ∧
      ∀ i, i ≠ r → (deduceRef s r t).1.getD i [] = s.getD i [] := by
  constructor
  · show (s.set r _).getD r [] = _
    rw [List.getD_eq_getD_get?, List.get?_set_eq_of_lt _ hr]
    rfl
  · intro i hi
    show (s.set r _).getD i [] = _
    rw [List.getD_eq_getD_get?, List.get?_set_ne _ _ (fun h => hi h.symm),
      List.getD_eq_getD_get?]

theorem solveboardRef_length (s : Store) (r : Nat) (t : Tape) :
    (solveboardRef s r t).1.length = s.length + 1 := by
  show ((s ++ [s.getD r []]).set s.length _).length = s.length + 1
  rw [List.length_set, List.length_append]
  rfl

theorem solutionRef_frame (s : Store) (r : Nat) (t : Tape) :
    ∀ i < s.length, (solutionRef s r t).1.getD i [] = s.getD i [] :=
  fun i hi => (solveboardRef_frame s r t).1 i hi

theorem checkpuzzleRef_frame (s : Store) (r : Nat) (target : Option Board) (t : Tape) :
    ∀ i < s.length, (checkpuzzleRef s r target t).1.getD i [] = s.getD i [] :=
  fun i hi => (solveboardRef_frame s r t).1 i hi

theorem ratepuzzleRefGo_frame (k : Nat) :
    ∀ (s : Store) (r : Nat) (t : Tape) (total : Nat),
      ∀ i < s.length, (ratepuzzleRefGo k s r t total).1.getD i [] = s.getD i [] := by
  induction k with
  | zero => intro s r t total i hi; rfl
  | succ k ih =>
    intro s r t total i hi
    show (match (solveboardRef s r t).2.2.1 with
      | none => ((solveboardRef s r t).1, none, (solveboardRef s r t).2.2.2)
      | some _ => ratepuzzleRefGo k (solveboardRef s r t).1 r (solveboardRef s r t).2.2.2
          (total + (solveboardRef s r t).2.1.length)).1.getD i [] = s.getD i []
    cases hres : (solveboardRef s r t).2.2.1 with
    | none => exact (solveboardRef_frame s r t).1 i hi
    | some b =>
      rw [ih (solveboardRef s r t).1 r (solveboardRef s r t).2.2.2 _ i
        (by rw [solveboardRef_length]; omega)]
      exact (solveboardRef_frame s r t).1 i hi

theorem ratepuzzleRef_frame (s : Store) (r samples : Nat) (t : Tape) :
    ∀ i < s.length, (ratepuzzleRef s r samples t).1.getD i [] = s.getD i [] :=
  fun i hi => ratepuzzleRefGo_frame samples s r t 0 i hi

/-- C9: in the reference-semantics model, `deduce` mutates exactly the
board object it is handed, while `solveboard` copies its input first, so
after `solveboard` — and after `solution`, `checkpuzzle` and
`ratepuzzle`, which call it — every pre-existing board in the store,
including the caller's original, is unchanged in every cell; moreover the
value computed agrees with the pure `solveboard`. -/
theorem C9_solveboard_no_mutation :
    (∀ (s : Store) (r : Nat) (t : Tape), r < s.length →
      (deduceRef s r t).1.getD r [] = (deduce (s.getD r []) t).1 ∧
        ∀ i, i ≠ r → (deduceRef s r t).1.getD i [] = s.getD i []) ∧
    (∀ (s : Store) (r : Nat) (t : Tape),
      (∀ i < s.length, (solveboardRef s r t).1.getD i [] = s.getD i []) ∧
        (solveboardRef s r t).2 = solveboard (s.getD r []) t) ∧
    (∀ (s : Store) (r : Nat) (t : Tape),
      ∀ i < s.length, (solutionRef s r t).1.getD i [] = s.getD i []) ∧
    (∀ (s : Store) (r : Nat) (target : Option Board) (t : Tape),
      ∀ i < s.length, (checkpuzzleRef s r target t).1.getD i [] = s.getD i []) ∧
    (∀ (s : Store) (r samples : Nat) (t : Tape),
      ∀ i < s.length, (ratepuzzleRef s r samples t).1.getD i [] = s.getD i []) :=
  ⟨deduceRef_frame, solveboardRef_frame, solutionRef_frame,
   checkpuzzleRef_frame, ratepuzzleRef_frame⟩
